import Mathlib

/-!
Shallow embedding of the FairValue repository's reconciliation and valuation
core (package `src/fairvalue`), together with proofs of the specification
claims about it.

Modelling conventions:
* Python `float` values are modelled as exact rationals (`ℚ`); the numeric
  claims of the specification are algebraic identities, stated over the
  idealized exact arithmetic.
* Python exceptions are modelled by the `PyErr` type below; fallible Python
  functions become functions into `Except PyErr _`.  Exception messages are
  dropped: only the exception class matters to the claims.
* `YYYY-MM-DD` date strings are modelled by the `Date` structure; parsing
  and re-formatting of valid date strings is the identity and is elided.
  Comparisons of parsed dates are the lexicographic order on
  (year, month, day).
-/

namespace FairValue

/-- Exception classes raised by the Python code.  `fairValueException` and
`parseException` are the repository's own typed domain errors (class
definitions live in `fairvalue/_exceptions.py`); `validationError` stands for
pydantic's `ValidationError` (which also wraps `ValueError`s raised inside
pydantic validators); the rest are Python built-ins. -/
inductive PyErr where
  | fairValueException : PyErr
  | parseException : PyErr
  | validationError : PyErr
  | valueError : PyErr
  | zeroDivisionError : PyErr
  | indexError : PyErr
  | keyError : PyErr
  | attributeError : PyErr
deriving DecidableEq, Repr

/-- A calendar date, modelling a parsed `YYYY-MM-DD` string. -/
structure Date where
  year : ℕ
  month : ℕ
  day : ℕ
deriving DecidableEq, Repr

namespace Date

/-- Lexicographic strict order on dates, as produced by comparing parsed
`datetime` values. -/
def ltProp (a b : Date) : Prop :=
  a.year < b.year ∨ (a.year = b.year ∧
    (a.month < b.month ∨ (a.month = b.month ∧ a.day < b.day)))

/-- Lexicographic order on dates. -/
def leProp (a b : Date) : Prop :=
  a.year < b.year ∨ (a.year = b.year ∧
    (a.month < b.month ∨ (a.month = b.month ∧ a.day ≤ b.day)))

instance : LT Date := ⟨Date.ltProp⟩
instance : LE Date := ⟨Date.leProp⟩

theorem lt_def {a b : Date} : a < b ↔
    (a.year < b.year ∨ (a.year = b.year ∧
      (a.month < b.month ∨ (a.month = b.month ∧ a.day < b.day)))) := Iff.rfl

theorem le_def {a b : Date} : a ≤ b ↔
    (a.year < b.year ∨ (a.year = b.year ∧
      (a.month < b.month ∨ (a.month = b.month ∧ a.day ≤ b.day)))) := Iff.rfl

instance decLT (a b : Date) : Decidable (a < b) :=
  inferInstanceAs (Decidable (a.year < b.year ∨ (a.year = b.year ∧
    (a.month < b.month ∨ (a.month = b.month ∧ a.day < b.day)))))

instance decLE (a b : Date) : Decidable (a ≤ b) :=
  inferInstanceAs (Decidable (a.year < b.year ∨ (a.year = b.year ∧
    (a.month < b.month ∨ (a.month = b.month ∧ a.day ≤ b.day)))))

instance : LinearOrder Date where
  le_refl a := by rw [le_def]; omega
  le_trans a b c := by rw [le_def, le_def, le_def]; omega
  le_antisymm a b h h' := by
    rw [le_def] at h h'
    have hy : a.year = b.year := by omega
    have hm : a.month = b.month := by omega
    have hd : a.day = b.day := by omega
    cases a; cases b; simp_all
  le_total a b := by rw [le_def, le_def]; omega
  lt_iff_le_not_le a b := by rw [lt_def, le_def, le_def]; omega
  decidableLE := Date.decLE
  decidableEq := inferInstance
  decidableLT := Date.decLT

end Date

/-! ## `fairvalue/utils.py` : date helpers -/

/-- `calendar.isleap`. -/
def isleap (y : ℕ) : Bool :=
  y % 4 = 0 && (y % 100 ≠ 0 || y % 400 = 0)

/-- Number of days in a month, i.e. `calendar.monthrange(year, month)[1]`. -/
def monthrange (year month : ℕ) : ℕ :=
  if month = 2 then (if isleap year then 29 else 28)
  else if month = 4 ∨ month = 6 ∨ month = 9 ∨ month = 11 then 30
  else 31

/-- The function `to_month_end` of `fairvalue/utils.py`. -/
def to_month_end (date : Date) : Date :=
  ⟨date.year, date.month, monthrange date.year date.month⟩

/-- Keys of a Python `dict` built by inserting the list values in order: the
not-yet-seen values, in first-occurrence order. -/
def insertionKeys {α : Type _} [DecidableEq α] : List α → List α → List α
  | [], _ => []
  | x :: xs, seen =>
    if x ∈ seen then insertionKeys xs seen else x :: insertionKeys xs (x :: seen)

/-- The distinct values of a list in order of first occurrence (the key
order of a Python `dict` / `collections.Counter` built from it). -/
def firstOccurrences {α : Type _} [DecidableEq α] (l : List α) : List α :=
  insertionKeys l []

/-- `statistics.mode` (Python ≥ 3.8): the most common value, ties broken by
first occurrence in the data. -/
def mode (l : List ℕ) : ℕ :=
  (firstOccurrences l).foldl
    (fun best x => if l.count x > l.count best then x else best)
    ((firstOccurrences l).headD 0)

/-- One loop iteration of `fill_dates`: if the year already exists take the
original date (at the first index of that year, `years_in_parsed_dates.index`),
otherwise synthesize the month-end of the modal month. -/
def fillRow (dates : List Date) (mode_month : ℕ) (year : ℕ) : Date :=
  if year ∈ dates.map Date.year then
    dates.getD ((dates.map Date.year).indexOf year) ⟨1, 1, 1⟩
  else
    to_month_end ⟨year, mode_month, 1⟩

/-- The function `fill_dates` of `fairvalue/utils.py`.  The source checks
`parsed_dates == sorted(parsed_dates)`; `List.insertionSort` computes the same
sorted permutation (sorting of dates is unambiguous: equal keys are equal
values), and `range(start_year, end_year + 1)` is `List.range'` with the
truncated-subtraction count. -/
def fill_dates (dates : List Date) : Except PyErr (List Date) :=
  if dates = [] then .error .valueError
  else if ¬ (dates = List.insertionSort (· ≤ ·) dates) then .error .valueError
  else
    let mode_month := mode (dates.map Date.month)
    let start_year := (dates.headD ⟨1, 1, 1⟩).year
    let end_year := (dates.getLastD ⟨1, 1, 1⟩).year
    .ok ((List.range' start_year (end_year + 1 - start_year)).map
      (fillRow dates mode_month))

/-- The function `generate_future_dates` of `fairvalue/utils.py`. -/
def generate_future_dates (date : Date) (n : ℕ) : List Date :=
  (List.range' 1 n).map (fun i =>
    let new_year := date.year + i
    if date.month = 2 ∧ date.day = 29 ∧ ¬ isleap new_year then
      ⟨new_year, 2, 28⟩
    else
      ⟨new_year, date.month, date.day⟩)

/-- Round half to even at integer precision (Python's `round`, idealized to
exact rationals). -/
def roundHalfEven (x : ℚ) : ℤ :=
  let n := ⌊x⌋
  let f := x - n
  if f < 1/2 then n
  else if f > 1/2 then n + 1
  else if n % 2 = 0 then n else n + 1

/-- Rounding of a float to two decimal places, as applied by `RoundedDict` in
`fairvalue/utils.py`. -/
def round2 (x : ℚ) : ℚ := (roundHalfEven (x * 100) : ℚ) / 100

/-! ## `fairvalue/models/financials.py` -/

/-- The pydantic model `TickerFinancials` (reconciled annual history), after
validation.  `free_cashflows` is `Optional` in the schema but is always
populated by the `postprocessing` validator, so it is total here. -/
structure TickerFinancials where
  operating_cashflows : Option (List ℚ)
  capital_expenditures : Option (List ℚ)
  free_cashflows : List ℚ
  year_end_dates : List Date
  shares_outstanding : List ℤ
deriving DecidableEq, Repr

/-- Constructing a `TickerFinancials`: the `validate_data` (mode="before")
model validator, pydantic's per-field validation (`capital_expenditures`
non-negative floats, `shares_outstanding` non-negative ints), then the
`postprocessing` (mode="after") validator.  An `Option` argument of `none`
models the keyword being absent from the input dict.  As in the source, the
length check covers only `operating_cashflows`, `capital_expenditures`,
`year_end_dates` and `shares_outstanding` — never `free_cashflows` — and the
duplicate check is on calendar years of the parsed dates. -/
def TickerFinancials.construct (operating_cashflows capital_expenditures free_cashflows : Option (List ℚ))
    (year_end_dates : List Date) (shares_outstanding : List ℤ) :
    Except PyErr TickerFinancials :=
  if free_cashflows.isNone ∧ (operating_cashflows.isNone ∨ capital_expenditures.isNone) then
    .error .validationError
  else
    let lengths : List ℕ :=
      ((operating_cashflows.map List.length).toList ++
        (capital_expenditures.map List.length).toList) ++
      [year_end_dates.length, shares_outstanding.length]
    if lengths.dedup.length ≠ 1 then .error .validationError
    else if ¬ (year_end_dates.map Date.year).Nodup then .error .validationError
    else if ¬ (∀ x ∈ capital_expenditures.getD [], (0:ℚ) ≤ x) then .error .validationError
    else if ¬ (∀ x ∈ shares_outstanding, (0:ℤ) ≤ x) then .error .validationError
    else
      match free_cashflows with
      | some f =>
          .ok ⟨operating_cashflows, capital_expenditures, f, year_end_dates, shares_outstanding⟩
      | none =>
          -- presence check above guarantees both are `some` here
          .ok ⟨operating_cashflows, capital_expenditures,
               List.zipWith (fun ops_cashflow capex => ops_cashflow - capex)
                 (operating_cashflows.getD []) (capital_expenditures.getD []),
               year_end_dates, shares_outstanding⟩

/-- The invariants that hold of every `TickerFinancials` value produced by a
successful pydantic construction (used as a hypothesis where the code
re-validates a sliced copy of an existing instance). -/
def TickerFinancials.Valid (f : TickerFinancials) : Prop :=
  (∀ l, f.operating_cashflows = some l → l.length = f.year_end_dates.length) ∧
  (∀ l, f.capital_expenditures = some l → l.length = f.year_end_dates.length ∧
    ∀ x ∈ l, (0:ℚ) ≤ x) ∧
  f.shares_outstanding.length = f.year_end_dates.length ∧
  (f.year_end_dates.map Date.year).Nodup ∧
  (∀ x ∈ f.shares_outstanding, (0:ℤ) ≤ x)

/-- The pydantic model `ForecastTickerFinancials`, after validation. -/
structure ForecastTickerFinancials where
  year_end_dates : List Date
  free_cashflows : List ℚ
  discount_rates : List ℚ
  shares_outstanding : ℤ
  terminal_growth : ℚ
deriving DecidableEq, Repr

/-- Constructing a `ForecastTickerFinancials`: the `validate_data`
(mode="before") model validator — equal lengths of the three series, distinct
calendar years, and the `terminal_growth >= discount_rates[-1]` guard — then
pydantic's field validation (`shares_outstanding : PositiveInt`,
`terminal_growth` non-negative). -/
def ForecastTickerFinancials.construct (year_end_dates : List Date)
    (free_cashflows discount_rates : List ℚ) (shares_outstanding : ℤ)
    (terminal_growth : ℚ) : Except PyErr ForecastTickerFinancials :=
  let lengths : List ℕ :=
    [year_end_dates.length, free_cashflows.length, discount_rates.length]
  if lengths.dedup.length ≠ 1 then .error .validationError
  else if ¬ (year_end_dates.map Date.year).Nodup then .error .validationError
  else
    match discount_rates.getLast? with
    | none => .error .indexError   -- discount_rates[-1] on an empty list
    | some r_final =>
      if terminal_growth ≥ r_final then .error .validationError
      else if shares_outstanding ≤ 0 then .error .validationError
      else if terminal_growth < 0 then .error .validationError
      else .ok ⟨year_end_dates, free_cashflows, discount_rates,
                shares_outstanding, terminal_growth⟩

/-- The function `latest_index` of `fairvalue/models/financials.py`: index of
the first year-end date later than `date`.  The comparison `date < x` is the
source's `datetime` comparison with `date` carrying time 23:59:59, which for
a date-only reference value coincides with strict date order. -/
def latest_index (date : Date) (year_end_dates : List Date) : Except PyErr ℕ :=
  if year_end_dates = [] then .error .fairValueException
  else
    match year_end_dates.findIdx? (fun x => decide (date < x)) with
    | some 0 => .error .fairValueException
    | some n => .ok n
    | none => .ok year_end_dates.length

/-- Python truthiness of an optional list (`if financials.xs:`). -/
def truthy (o : Option (List ℚ)) : Bool :=
  match o with
  | none => false
  | some l => l ≠ []

/-- The function `fetch_latest_financials` of
`fairvalue/models/financials.py`, for a date-typed `date` argument.  It
slices every present series to the first `n` entries and re-validates the
result through the `TickerFinancials` constructor. -/
def fetch_latest_financials (date : Date) (financials : Option TickerFinancials)
    (shares_outstanding : Option ℤ) : Except PyErr TickerFinancials :=
  match financials with
  | none => .error .valueError
  | some fin =>
    if fin.free_cashflows.length = 0 then .error .fairValueException
    else
      match latest_index date fin.year_end_dates with
      | .error e => .error e
      | .ok n =>
        let year_end_dates := fin.year_end_dates.take n
        let shares :=
          match shares_outstanding with
          | none => fin.shares_outstanding.take n
          | some s => List.replicate n s
        let fcf : Option (List ℚ) :=
          if truthy (some fin.free_cashflows) then some (fin.free_cashflows.take n) else none
        let capex : Option (List ℚ) :=
          if truthy fin.capital_expenditures then
            some ((fin.capital_expenditures.getD []).take n) else none
        let ops : Option (List ℚ) :=
          if truthy fin.operating_cashflows then
            some ((fin.operating_cashflows.getD []).take n) else none
        TickerFinancials.construct ops capex fcf year_end_dates shares

/-! ## `fairvalue/_stock.py` : DCF projection and intrinsic value -/

/-- The result record of `calc_intrinsic_value`.  `intrinsic_value = none`
models the `np.where` branch producing `float("nan")`. -/
structure IVResult where
  shares_outstanding : ℤ
  company_value : ℚ
  intrinsic_value : Option ℚ
deriving DecidableEq, Repr

/-- The present-value loop of `calc_intrinsic_value`
(`for i in range(len(free_cashflows)): ... max(fcf_i / (1+discount[i])**(i+1), 0)`),
started at index `i`.  A missing `discount[i]` is an `IndexError`; a zero
denominator is a `ZeroDivisionError`. -/
def presentValueFcf (free_cashflows discount : List ℚ) (i : ℕ) : Except PyErr ℚ :=
  match free_cashflows with
  | [] => .ok 0
  | f :: fs =>
    match discount.get? i with
    | none => .error .indexError
    | some d =>
      if (1 + d) ^ (i + 1) = 0 then .error .zeroDivisionError
      else
        match presentValueFcf fs discount (i + 1) with
        | .error e => .error e
        | .ok rest => .ok (max (f / (1 + d) ^ (i + 1)) 0 + rest)

/-- The function `calc_intrinsic_value` of `fairvalue/_stock.py`.  Note that
the guard is the strict comparison `terminal_growth > discount[-1]`, and that
`np.where(shares_outstanding > 0, company_value / shares_outstanding, nan)`
evaluates the division eagerly, so a zero share count is a
`ZeroDivisionError`. -/
def calc_intrinsic_value (free_cashflows discount : List ℚ)
    (terminal_growth : ℚ) (shares_outstanding : ℤ) : Except PyErr IVResult :=
  match discount.getLast? with
  | none => .error .indexError   -- discount[-1] on an empty list
  | some d_final =>
    if terminal_growth > d_final then .error .fairValueException
    else
      match presentValueFcf free_cashflows discount 0 with
      | .error e => .error e
      | .ok present_value_fcf =>
        match free_cashflows.getLast? with
        | none => .error .indexError   -- free_cashflows[-1] on an empty list
        | some f_final =>
          if d_final - terminal_growth = 0 then .error .zeroDivisionError
          else
            let terminal_value := f_final * (1 + terminal_growth) / (d_final - terminal_growth)
            if (1 + d_final) ^ free_cashflows.length = 0 then .error .zeroDivisionError
            else
              let present_value_terminal :=
                terminal_value / (1 + d_final) ^ free_cashflows.length
              let company_value := present_value_fcf + present_value_terminal
              if shares_outstanding = 0 then .error .zeroDivisionError
              else
                .ok ⟨shares_outstanding, company_value,
                     if shares_outstanding > 0 then some (company_value / shares_outstanding)
                     else none⟩

/-- The free-cash-flow projection loop of `Stock.predict_fairvalue`
(`for _ in range(number_of_years): fcf = fcf * (1 + g) / (1 + discounting_rate)`),
collecting the successive values of `fcf`. -/
def project_fcfs : ℕ → ℚ → ℚ → ℚ → List ℚ
  | 0, _, _, _ => []
  | n + 1, fcf, g, discounting_rate =>
    let fcf' := fcf * (1 + g) / (1 + discounting_rate)
    fcf' :: project_fcfs n fcf' g discounting_rate

/-- The `Stock` entity of `fairvalue/_stock.py`.  The wall-clock-derived
diagnostic attributes (`days_since_filing`, `is_potentially_delisted`) are
omitted: they depend on `datetime.now()` and are not the subject of any
claim. -/
structure Stock where
  ticker_id : Option String
  exchange : Option String
  cik : Option String
  entity_name : Option String
  financials : Option TickerFinancials
  latest_shares_outstanding : ℤ
deriving DecidableEq, Repr

/-- The response record assembled by `Stock.predict_fairvalue` (the
`historical_features=False` path; the feature extractor is a diagnostic that
never feeds the valuation).  Floats are rounded to two decimals by
`RoundedDict`. -/
structure Response where
  ticker_id : Option String
  exchange : Option String
  cik : Option String
  entity_name : Option String
  forecast_date : Option Date
  forecast_horizon : ℕ
  shares_outstanding : ℤ
  company_value : ℚ
  intrinsic_value : Option ℚ
deriving DecidableEq, Repr

/-- The method `Stock.predict_fairvalue`, with `forecast_date` supplied as a
parsed date (the source's `datetime.now()` default is a wall-clock read and
is modelled by passing the current date explicitly). -/
def predict_fairvalue (stock : Stock) (growth_rate terminal_growth_rate discounting_rate : ℚ)
    (number_of_years : ℕ) (forecast_financials : Option ForecastTickerFinancials)
    (forecast_date : Date) (use_historic_shares : Bool) : Except PyErr Response :=
  let mkResponse : Option Date → IVResult → Response := fun fd iv =>
    { ticker_id := stock.ticker_id
      exchange := stock.exchange
      cik := stock.cik
      entity_name := stock.entity_name
      forecast_date := fd
      forecast_horizon := number_of_years
      shares_outstanding := iv.shares_outstanding
      company_value := round2 iv.company_value
      intrinsic_value := iv.intrinsic_value.map round2 }
  match forecast_financials with
  | some ff =>
    match calc_intrinsic_value ff.free_cashflows ff.discount_rates
        ff.terminal_growth ff.shares_outstanding with
    | .error e => .error e
    | .ok iv => .ok (mkResponse none iv)
  | none =>
    match fetch_latest_financials forecast_date stock.financials none with
    | .error e => .error e
    | .ok latest_financials =>
      let sharesE : Except PyErr ℤ :=
        if use_historic_shares then
          match latest_financials.shares_outstanding.getLast? with
          | none => .error .indexError
          | some s => .ok s
        else .ok stock.latest_shares_outstanding
      match sharesE with
      | .error e => .error e
      | .ok shares_outstanding =>
        if stock.latest_shares_outstanding = 0 then
          .error .fairValueException
        else
          match latest_financials.free_cashflows.getLast? with
          | none => .error .indexError
          | some fcf =>
            let free_cashflows := project_fcfs number_of_years fcf growth_rate discounting_rate
            let discount_rates := List.replicate number_of_years discounting_rate
            let year_end_dates := generate_future_dates forecast_date number_of_years
            match ForecastTickerFinancials.construct year_end_dates free_cashflows
                discount_rates shares_outstanding terminal_growth_rate with
            | .error e => .error e
            | .ok ff =>
              match calc_intrinsic_value ff.free_cashflows ff.discount_rates
                  ff.terminal_growth ff.shares_outstanding with
              | .error e => .error e
              | .ok iv => .ok (mkResponse (some forecast_date) iv)

/-! ## `fairvalue/models/sec_ingestion.py` : the series aligner -/

/-- The `form` literal of a `Datum` (`"10-K" | "20-F" | "6-K" | "20-F/A" |
"10-Q" | "10-Q/A" | "10-K/A" | "8-K"`); constructor names replace the
hyphen/slash characters. -/
inductive Form where
  | f10K | f20F | f6K | f20FA | f10Q | f10QA | f10KA | f8K
deriving DecidableEq, Repr

/-- The pydantic model `Datum`: one reported financial fact.  The `end` field
is named `endDate` (`end` is a Lean keyword). -/
structure Datum where
  endDate : Date
  val : ℚ
  accn : Option String := none
  fy : Option ℤ := none
  fp : Option String := none
  form : Form
  filed : Date
  frame : Option String := none
deriving DecidableEq, Repr

/-- A row of `shares_outstanding_df`: the columns produced by
`datum_to_dataframe(..., SHARES_OUTSTANDING)` plus the parsed dates (elided:
`endDate`/`filed` are already parsed) and the `stock_split` /
`stock_split_date` columns added by the split-handling logic (`none` models
a NaN cell of a not-yet-assigned column). -/
structure SharesRow where
  endDate : Date
  accn : Option String
  form : Form
  filed : Date
  frame : Option String
  shares_outstanding : ℚ
  stock_split : Option ℚ := none
  stock_split_date : Option Date := none
deriving DecidableEq, Repr

/-- One row of `datum_to_dataframe(data, SHARES_OUTSTANDING)`. -/
def datumToSharesRow (d : Datum) : SharesRow :=
  { endDate := d.endDate, accn := d.accn, form := d.form, filed := d.filed,
    frame := d.frame, shares_outstanding := d.val }

/-- The function `nearest` of `fairvalue/models/sec_ingestion.py`:
`dates[dates <= split_date].idxmax()`, i.e. the index label of the first row
attaining the maximal period end-date among rows with end-date ≤ the split
date; `None` when no such row exists.  `idxmax` keeps the first occurrence on
ties, which the fold realizes by replacing the running best only on a
strictly larger date. -/
def nearest (split_date : Date) (rows : List SharesRow) : Option ℕ :=
  let valid := rows.enum.filter (fun p => decide (p.2.endDate ≤ split_date))
  (valid.foldl (fun best p =>
    match best with
    | none => some p
    | some q => if q.2.endDate < p.2.endDate then some p else some q) none).map Prod.fst

/-- The assignment
`shares_outstanding_df.loc[idx, "stock_split"] = ...; .loc[idx, "stock_split_date"] = ...`
performed for one stock-split row. -/
def setSplitAt (s : Datum) : ℕ → List SharesRow → List SharesRow
  | _, [] => []
  | 0, r :: rs =>
      { r with stock_split := some s.val, stock_split_date := some s.endDate } :: rs
  | i + 1, r :: rs => r :: setSplitAt s i rs

/-- The body of the `for _, row_df in stock_split_df.iterrows()` loop for one
split row. -/
def applySplitRow (rows : List SharesRow) (s : Datum) : List SharesRow :=
  match nearest s.endDate rows with
  | none => rows
  | some idx => setSplitAt s idx rows

/-- `shares_outstanding_df["stock_split_date"].bfill()`: each missing cell
takes the next present value below it. -/
def bfillSplitDate : List SharesRow → List SharesRow
  | [] => []
  | r :: rs =>
    let rs' := bfillSplitDate rs
    let v : Option Date :=
      match r.stock_split_date with
      | some d => some d
      | none =>
        match rs' with
        | [] => none
        | r' :: _ => r'.stock_split_date
    { r with stock_split_date := v } :: rs'

/-- `shares_outstanding_df["stock_split"].fillna(1)`. -/
def fillnaSplitOne (rows : List SharesRow) : List SharesRow :=
  rows.map (fun r => { r with stock_split := some (r.stock_split.getD 1) })

/-- `shares_outstanding_df["stock_split"][::-1].cumprod()[::-1]`: each cell
becomes the product of the `stock_split` column from that row to the end of
the frame.  (Applied after `fillna(1)`, so every cell is present; `getD 1`
reads the guaranteed-present value.) -/
def reversedCumprod : List SharesRow → List SharesRow
  | [] => []
  | r :: rs =>
    let rs' := reversedCumprod rs
    let tailProd : ℚ :=
      match rs' with
      | [] => 1
      | r' :: _ => r'.stock_split.getD 1
    { r with stock_split := some (r.stock_split.getD 1 * tailProd) } :: rs'

/-- The exclusion of restated filings: drop rows with
`end_parsed < stock_split_date < filed_parsed`.  A NaT `stock_split_date`
compares false, so such rows are kept. -/
def dropRestated (rows : List SharesRow) : List SharesRow :=
  rows.filter (fun r =>
    match r.stock_split_date with
    | none => true
    | some d => ¬ (r.endDate < d ∧ d < r.filed))

/-- The annual-category forms kept by the aligner:
`["10-K", "20-F", "20-F/A", "10-K/A"]`. -/
def annual_forms : List Form := [Form.f10K, Form.f20F, Form.f20FA, Form.f10KA]

/-- The sort key of `sort_values(by=["end_parsed", "filed_parsed"])`:
lexicographic on (period end-date, filed date). -/
def rowLe (a b : SharesRow) : Prop :=
  a.endDate < b.endDate ∨ (a.endDate = b.endDate ∧ a.filed ≤ b.filed)

instance rowLe.decRel : DecidableRel rowLe := fun a b =>
  inferInstanceAs (Decidable (a.endDate < b.endDate ∨
    (a.endDate = b.endDate ∧ a.filed ≤ b.filed)))

instance rowLe.isTotal : IsTotal SharesRow rowLe := by
  constructor
  intro a b
  unfold rowLe
  rcases lt_trichotomy a.endDate b.endDate with h | h | h
  · exact Or.inl (Or.inl h)
  · rcases le_total a.filed b.filed with h' | h'
    · exact Or.inl (Or.inr ⟨h, h'⟩)
    · exact Or.inr (Or.inr ⟨h.symm, h'⟩)
  · exact Or.inr (Or.inl h)

instance rowLe.isTrans : IsTrans SharesRow rowLe := by
  constructor
  intro a b c hab hbc
  unfold rowLe at *
  rcases hab with h1 | ⟨h1, h1'⟩ <;> rcases hbc with h2 | ⟨h2, h2'⟩
  · exact Or.inl (h1.trans h2)
  · exact Or.inl (h2 ▸ h1)
  · exact Or.inl (h1 ▸ h2)
  · exact Or.inr ⟨h1.trans h2, h1'.trans h2'⟩

/-- `drop_duplicates(subset=[key], keep="last")`: a row survives when no
later row has the same key. -/
def dropDupKeepLast {α κ : Type _} [DecidableEq κ] (key : α → κ) : List α → List α
  | [] => []
  | x :: xs =>
    if xs.any (fun y => decide (key y = key x)) then dropDupKeepLast key xs
    else x :: dropDupKeepLast key xs

/-- Lines 588–597 of `fairvalue/models/sec_ingestion.py`: restrict to
annual-category forms, sort ascending by (period end, filed date), and
deduplicate by period end keeping the last row. -/
def dedupeAnnual (rows : List SharesRow) : List SharesRow :=
  dropDupKeepLast SharesRow.endDate
    (List.insertionSort rowLe
      (rows.filter (fun r => decide (r.form ∈ annual_forms))))

/-- The shares-outstanding portion of `secfiling_to_financials` (lines
499–603): stock-split assignment, back-fill, cumulative multiplier,
restatement exclusion, annual-form restriction, (end, filed) sort,
deduplication by period end, and the final multiplication of the share count
by the cumulative split ratio (with the `form` column then set to `"10-K"`).
`stock_split_conversions = none` models an absent
`StockholdersEquityNoteStockSplitConversionRatio1` metric. -/
def alignSharesOutstanding (shares_outstanding : List Datum)
    (stock_split_conversions : Option (List Datum)) : List SharesRow :=
  let df0 := shares_outstanding.map datumToSharesRow
  let noSplit := fun (rows : List SharesRow) =>
    rows.map (fun r => { r with stock_split := some 1, stock_split_date := none })
  let df :=
    match stock_split_conversions with
    | none => noSplit df0
    | some conversions =>
      let stock_split_df :=
        List.insertionSort (fun a b : Datum => a.endDate ≤ b.endDate)
          (conversions.filter (fun d => d.frame.isSome))
      let loopBranch :=
        dropRestated (reversedCumprod (fillnaSplitOne (bfillSplitDate
          (stock_split_df.foldl applySplitRow df0))))
      if stock_split_df.length = 0 then noSplit df0
      else
        -- `stock_split_df["end_parsed"].max() < shares_outstanding_df["end_parsed"].min()`;
        -- a min over an empty frame is NaN and the comparison is false.
        match (stock_split_df.map Datum.endDate).max?, (df0.map SharesRow.endDate).min? with
        | some maxSplitEnd, some minSharesEnd =>
          if maxSplitEnd < minSharesEnd then noSplit df0 else loopBranch
        | _, _ => loopBranch
  (dedupeAnnual df).map (fun r =>
    { r with shares_outstanding := r.shares_outstanding * r.stock_split.getD 1,
             form := Form.f10K })

/-! ## `fairvalue/models/sec_ingestion.py` : filing models and the full
annual-financials pipeline -/

/-- The pydantic model `FinancialMetric`: a reported metric with a map from
currency/unit keys to datum series. -/
structure FinancialMetric where
  label : String
  description : String
  units : List (String × List Datum)
deriving DecidableEq, Repr

/-- The pydantic model `USGaap` (required and optional metrics used by the
aligner). -/
structure USGaap where
  NetCashProvidedByUsedInOperatingActivities : FinancialMetric
  CommonStockSharesOutstanding : FinancialMetric
  StockholdersEquityNoteStockSplitConversionRatio1 : Option FinancialMetric := none
  PaymentsToAcquirePropertyPlantAndEquipment : Option FinancialMetric := none
deriving DecidableEq, Repr

/-- The pydantic model `Facts`.  The `dei` block feeds no part of the
annual-financials path and is omitted. -/
structure Facts where
  us_gaap : USGaap
deriving DecidableEq, Repr

/-- The pydantic model `Submissions` (the fields read by the valuation path;
`filings.recent` feeds only the wall-clock delisting diagnostic and is
omitted). -/
structure Submissions where
  cik : String
  tickers : List String
  exchanges : List String
  stateOfIncorporationDescription : String
deriving DecidableEq, Repr

/-- The pydantic model `CompanyFacts` (`cik` is normalized to a string by a
field validator). -/
structure CompanyFacts where
  cik : String
  entityName : String
  facts : Facts
deriving DecidableEq, Repr

/-- The `SECFilingsModel` bundle of company facts and submissions. -/
structure SECFiling where
  companyfacts : CompanyFacts
  submissions : Submissions
deriving DecidableEq, Repr

/-- The function `check_for_foreign_currencies`. -/
def check_for_foreign_currencies (sec_filing : SECFiling) : Bool :=
  let netOps := sec_filing.companyfacts.facts.us_gaap.NetCashProvidedByUsedInOperatingActivities
  if (netOps.units.lookup "USD").isNone then true
  else if netOps.units.length > 1 then true
  else
    match sec_filing.companyfacts.facts.us_gaap.PaymentsToAcquirePropertyPlantAndEquipment with
    | some capex =>
      if (capex.units.lookup "USD").isNone then true
      else if capex.units.length > 1 then true
      else false
    | none => false

/-- The function `search_ticker`: prefer the first (ticker, exchange) pair
listed on NYSE/NASDAQ, otherwise fall back to the first shortest ticker.
(`exchanges` is typed `List[str]`, so the source's `exchange is not None`
test is always true and is elided.) -/
def search_ticker (submission : Submissions) : Except PyErr (String × String) :=
  if submission.tickers.length ≠ submission.exchanges.length then .error .parseException
  else if submission.tickers.length = 0 ∨ submission.exchanges.length = 0 then
    .error .parseException
  else
    let pairs := submission.tickers.zip submission.exchanges
    match pairs.find? (fun p =>
        decide (p.2.toLower = "nyse" ∨ p.2.toLower = "nasdaq")) with
    | some p => .ok p
    | none =>
      match pairs.foldl (fun best p =>
          match best with
          | none => some p
          | some q => if p.1.length < q.1.length then some p else some q) none with
      | some p => .ok p
      | none => .error .parseException   -- unreachable: `pairs` is non-empty here

/-- A row of `financials_df` after the merge of the operating-cashflow frame
with the aligned shares frame and (optionally) the capital-expenditure
frame.  `capital_expenditure = none` models a NaN cell of a left join without
a match; `free_cashflows` is the column added by
`secfiling_to_annual_financials`. -/
structure FinRow where
  endDate : Date
  accn : Option String
  form : Form
  filed : Date
  frame : Option String
  net_cashflow_ops : ℚ
  shares_outstanding : ℚ
  capital_expenditure : Option ℚ := none
  free_cashflows : Option ℚ := none
deriving DecidableEq, Repr

/-- `operating_cashflows_df.merge(shares_outstanding_df[["end", "form", SHARES_OUTSTANDING]],
on=["end", "form"])`: an inner join preserving left order, right matches in
right order. -/
def mergeOpsShares (ops : List Datum) (shares : List SharesRow) : List FinRow :=
  ops.flatMap (fun o =>
    (shares.filter (fun s => decide (s.endDate = o.endDate ∧ s.form = o.form))).map
      (fun s =>
        { endDate := o.endDate, accn := o.accn, form := o.form, filed := o.filed,
          frame := o.frame, net_cashflow_ops := o.val,
          shares_outstanding := s.shares_outstanding }))

/-- `financials_df.merge(capital_expenditures_df[["filed", "end", "form", CAPITAL_EXPENDITURE]],
on=["filed", "end", "form"], how="left")`: a left join; an unmatched left row
keeps a NaN capital expenditure. -/
def leftMergeCapex (rows : List FinRow) (capex : List Datum) : List FinRow :=
  rows.flatMap (fun r =>
    match capex.filter (fun c =>
        decide (c.filed = r.filed ∧ c.endDate = r.endDate ∧ c.form = r.form)) with
    | [] => [{ r with capital_expenditure := none }]
    | ms => ms.map (fun c => { r with capital_expenditure := some c.val }))

/-- The function `secfiling_to_financials` (the identity columns — cik,
ticker, entity name, exchange, `latest_shares_outstanding`, foreign flags —
are constant columns never read by the downstream annual-financials path and
are not carried on the rows; `search_ticker` is still consulted for its
exceptions).  The `hasattr` guards on declared pydantic fields are always
satisfied and are elided.  `state_dict` is the module-level
state-of-incorporation lookup table, injected as a parameter. -/
def secfiling_to_financials (state_dict : String → Bool) (sec_filing : SECFiling) :
    Except PyErr (List FinRow) :=
  let is_foreign :=
    (¬ state_dict sec_filing.submissions.stateOfIncorporationDescription) ∨
      check_for_foreign_currencies sec_filing
  if is_foreign then .error .parseException
  else
    let us_gaap := sec_filing.companyfacts.facts.us_gaap
    match us_gaap.NetCashProvidedByUsedInOperatingActivities.units.lookup "USD" with
    | none => .error .keyError   -- unreachable: the foreign check guarantees USD
    | some operating_cashflows =>
      let capexE : Except PyErr (Option (List Datum)) :=
        match us_gaap.PaymentsToAcquirePropertyPlantAndEquipment with
        | some metric =>
          match metric.units.lookup "USD" with
          | none => .error .keyError   -- unreachable: the foreign check guarantees USD
          | some l => .ok (some l)
        | none => .ok none
      match capexE with
      | .error e => .error e
      | .ok capital_expenditures =>
        match us_gaap.CommonStockSharesOutstanding.units.lookup "shares" with
        | none => .error .parseException
        | some shares_outstanding =>
          let splitsE : Except PyErr (Option (List Datum)) :=
            match us_gaap.StockholdersEquityNoteStockSplitConversionRatio1 with
            | some metric =>
              match metric.units.lookup "pure" with
              | none => .error .parseException
              | some l => .ok (some l)
            | none => .ok none
          match splitsE with
          | .error e => .error e
          | .ok stock_split_conversions =>
            let shares_df := alignSharesOutstanding shares_outstanding stock_split_conversions
            -- `shares_outstanding_df.iloc[[-1]]` raises IndexError on an empty frame
            if shares_df = [] then .error .indexError
            else
              match search_ticker sec_filing.submissions with
              | .error e => .error e
              | .ok _ =>
                let merged := mergeOpsShares operating_cashflows shares_df
                let merged : List FinRow :=
                  match capital_expenditures with
                  | some capexList =>
                    if capexList ≠ [] then leftMergeCapex merged capexList
                    else merged.map (fun r : FinRow => { r with capital_expenditure := some 0 })
                  | none => merged.map (fun r : FinRow => { r with capital_expenditure := some 0 })
                -- `astype(float)` then `fillna(0.0)` on the capex column
                .ok (merged.map (fun r =>
                  { r with capital_expenditure := some (r.capital_expenditure.getD 0) }))

/-- Truncation toward zero, as `numpy.astype(int)` applies to a float. -/
def pyIntTrunc (q : ℚ) : ℤ := if q < 0 then -(⌊-q⌋) else ⌊q⌋

/-- `cfacts_df_to_dict` applied to the final annual frame (in this path the
`free_cashflows` and `capital_expenditure` columns are always populated). -/
def cfacts_df_to_dict (rows : List FinRow) :
    Option (List ℚ) × Option (List ℚ) × Option (List ℚ) × List Date × List ℤ :=
  (some (rows.map FinRow.net_cashflow_ops),
   some (rows.map (fun r => r.capital_expenditure.getD 0)),
   some (rows.map (fun r => r.free_cashflows.getD 0)),
   rows.map FinRow.endDate,
   rows.map (fun r => pyIntTrunc r.shares_outstanding))

/-- The function `secfiling_to_annual_financials` (the
`return_dataframe=False` path): derive free cash flow, absolute-value the
share counts, restrict to annual forms, deduplicate by (period end, filed)
and then by fiscal year keeping the last, and validate through the
`TickerFinancials` constructor.  The `cik` component of the dedup keys is a
constant column and is dropped from the keys. -/
def secfiling_to_annual_financials (state_dict : String → Bool) (sec_filing : SECFiling) :
    Except PyErr TickerFinancials :=
  match secfiling_to_financials state_dict sec_filing with
  | .error e => .error e
  | .ok financials_df =>
    let rows := financials_df.map (fun r =>
      { r with capital_expenditure := some (r.capital_expenditure.getD 0) })
    let rows := rows.map (fun r =>
      { r with free_cashflows := some (r.net_cashflow_ops - r.capital_expenditure.getD 0),
               shares_outstanding := |r.shares_outstanding| })
    let rows := rows.filter (fun r => decide (r.form ∈ annual_forms))
    let rows := dropDupKeepLast (fun r => (r.endDate, r.filed)) rows
    let rows := dropDupKeepLast (fun r => r.endDate.year) rows
    match cfacts_df_to_dict rows with
    | (ops, capex, fcf, year_end_dates, shares) =>
      TickerFinancials.construct ops capex fcf year_end_dates shares

/-! ## `fairvalue/_stock.py` : `Stock.__init__` -/

/-- The keyword arguments of a user-supplied `historical_financials` dict
(the input to the `TickerFinancials` constructor); a `none` optional field
models an absent key. -/
structure TickerFinancialsArgs where
  operating_cashflows : Option (List ℚ) := none
  capital_expenditures : Option (List ℚ) := none
  free_cashflows : Option (List ℚ) := none
  year_end_dates : List Date
  shares_outstanding : List ℤ
deriving DecidableEq, Repr

/-- The identity and financials attributes set by the two initializer
branches of `Stock.__init__`, before the shares-outstanding default is
applied. -/
structure PreStock where
  ticker_id : Option String
  exchange : Option String
  cik : Option String
  entity_name : Option String
  financials : Option TickerFinancials
deriving DecidableEq, Repr

/-- The method `Stock._initialize_from_user_defined`. -/
def initialize_from_user_defined (ticker_id exchange cik entity_name : Option String)
    (latest_shares_outstanding : Option ℤ)
    (historical_financials : Option TickerFinancialsArgs) : Except PyErr PreStock :=
  match ticker_id with
  | none => .error .fairValueException
  | some tid =>
    if historical_financials.isNone ∧ latest_shares_outstanding.isNone then
      .error .fairValueException
    else
      match historical_financials with
      | some args =>
        match TickerFinancials.construct args.operating_cashflows
            args.capital_expenditures args.free_cashflows
            args.year_end_dates args.shares_outstanding with
        | .error e => .error e
        | .ok fin => .ok ⟨some tid, exchange, cik, entity_name, some fin⟩
      | none => .ok ⟨some tid, exchange, cik, entity_name, none⟩

/-- The method `Stock._initialize_from_sec_filing`.  `dict(zip(tickers,
exchanges))` keeps keys in first-occurrence order with the last value per
key; `min(ticker_dict, key=len)` returns the first shortest key. -/
def initialize_from_sec_filing (state_dict : String → Bool) (sec_filing : SECFiling) :
    Except PyErr PreStock :=
  let pairs := sec_filing.submissions.tickers.zip sec_filing.submissions.exchanges
  match firstOccurrences (pairs.map Prod.fst) with
  | [] => .error .valueError   -- `min` of an empty dict
  | k :: ks =>
    let shortest_key := ks.foldl (fun best t => if t.length < best.length then t else best) k
    let exchange := ((pairs.filter (fun p => decide (p.1 = shortest_key))).getLast?).map Prod.snd
    match secfiling_to_annual_financials state_dict sec_filing with
    | .error e => .error e
    | .ok fin =>
      .ok ⟨some shortest_key, exchange, some sec_filing.companyfacts.cik,
           some sec_filing.companyfacts.entityName, some fin⟩

/-- The constructor `Stock.__init__`: dispatch to an initializer branch, then
default `latest_shares_outstanding` to the last reconciled share count when
the argument was not supplied (`self.financials.shares_outstanding[-1]`,
which is an `AttributeError` on absent financials and an `IndexError` on an
empty series). -/
def Stock.init (state_dict : String → Bool) (ticker_id exchange cik : Option String)
    (latest_shares_outstanding : Option ℤ) (entity_name : Option String)
    (historical_financials : Option TickerFinancialsArgs)
    (sec_filing : Option SECFiling) : Except PyErr Stock :=
  let preE :=
    match sec_filing with
    | some sf => initialize_from_sec_filing state_dict sf
    | none =>
      initialize_from_user_defined ticker_id exchange cik entity_name
        latest_shares_outstanding historical_financials
  match preE with
  | .error e => .error e
  | .ok pre =>
    match latest_shares_outstanding with
    | none =>
      match pre.financials with
      | none => .error .attributeError
      | some fin =>
        match fin.shares_outstanding.getLast? with
        | none => .error .indexError
        | some v =>
          .ok ⟨pre.ticker_id, pre.exchange, pre.cik, pre.entity_name, pre.financials, v⟩
    | some v =>
      .ok ⟨pre.ticker_id, pre.exchange, pre.cik, pre.entity_name, pre.financials, v⟩

/-! # Theorems -/

/-! ## Helper lemmas -/

/-- Element-wise description of the DCF projection loop: after `j + 1`
iterations the running cash flow is the initial one multiplied by
`((1 + g) / (1 + r)) ^ (j + 1)`. -/
theorem project_fcfs_get? (n : ℕ) (fcf g r : ℚ) (j : ℕ) :
    (project_fcfs n fcf g r).get? j =
      if j < n then some (fcf * ((1 + g) / (1 + r)) ^ (j + 1)) else none := by
  induction n generalizing fcf j with
  | zero => simp [project_fcfs]
  | succ n ih =>
    cases j with
    | zero =>
      simp only [project_fcfs, List.get?_cons_zero, if_pos (Nat.succ_pos n)]
      rw [pow_one, mul_div_assoc]
    | succ j =>
      simp only [project_fcfs, List.get?_cons_succ, ih]
      have hiff : j < n ↔ j + 1 < n + 1 := by omega
      by_cases h : j < n
      · rw [if_pos h, if_pos (hiff.mp h)]
        congr 1
        rw [mul_div_assoc, mul_assoc, ← pow_succ']
      · rw [if_neg h, if_neg (fun hc => h (hiff.mpr hc))]

/-- A list of identical lengths deduplicates to a singleton. -/
theorem dedup_len_one_of_all_eq (a : ℕ) {l : List ℕ} (hne : l ≠ [])
    (h : ∀ x ∈ l, x = a) : l.dedup.length = 1 := by
  have hmem : ∀ x ∈ l.dedup, x = a := fun x hx => h x (List.mem_dedup.mp hx)
  have hnd : l.dedup.Nodup := List.nodup_dedup l
  match hd : l.dedup with
  | [] =>
    exact absurd ((List.dedup_eq_nil _).mp hd) hne
  | [x] => rfl
  | x :: y :: t =>
    rw [hd] at hmem hnd
    have hx := hmem x (by simp)
    have hy := hmem y (by simp)
    rw [List.nodup_cons] at hnd
    exact absurd (by simp [hx, hy]) hnd.1

/-- Conversely, all entries of a list with a singleton dedup are equal. -/
theorem all_eq_of_dedup_len_one {l : List ℕ} (h : l.dedup.length = 1) :
    ∀ x ∈ l, ∀ y ∈ l, x = y := by
  obtain ⟨a, ha⟩ := List.length_eq_one.mp h
  intro x hx y hy
  have hx' : x ∈ l.dedup := List.mem_dedup.mpr hx
  have hy' : y ∈ l.dedup := List.mem_dedup.mpr hy
  rw [ha] at hx' hy'
  simp at hx' hy'
  rw [hx', hy']

/-! ## C5 : DCF boundary -/

/-- C5.  DCF boundary: for every last observed free cash flow `fcf_0`,
discount rate `r` with `1 + r ≠ 0`, and horizon `N ≥ 1`, the DCF projection
with zero growth (the source's loop applies a constant growth rate, i.e. a
zero growth-decay rate) produces forecast cash flows with
`fcf_i = fcf_0 / (1 + r) ^ i` exactly, for every `i` in `1..N`. -/
theorem C5_dcf_boundary (fcf0 r : ℚ) (n i : ℕ) (hr : 1 + r ≠ 0)
    (h1 : 1 ≤ i) (h2 : i ≤ n) :
    (project_fcfs n fcf0 0 r).get? (i - 1) = some (fcf0 / (1 + r) ^ i) := by
  rw [project_fcfs_get?, if_pos (by omega : i - 1 < n)]
  have hi : i - 1 + 1 = i := by omega
  rw [hi, add_zero, div_pow, one_pow, mul_one_div]

/-- Witness for C5 at `fcf_0 = 100`, `r = 1/10`, `N = 3`, `i = 2`. -/
theorem C5_dcf_boundary_witness :
    (1 : ℚ) + 1/10 ≠ 0 ∧ 1 ≤ 2 ∧ 2 ≤ 3 ∧
    (project_fcfs 3 100 0 (1/10)).get? (2 - 1) = some (100 / (1 + 1/10) ^ 2) :=
  ⟨by norm_num, by norm_num, by norm_num,
    C5_dcf_boundary 100 (1/10) 3 2 (by norm_num) (by norm_num) (by norm_num)⟩

/-! ## C6 : free-cash-flow round trip -/

/-- C6.  Free-cash-flow round-trip: for every `TickerFinancials` successfully
constructed with explicit operating cashflows and capital expenditures and
without supplied free cashflows, the resulting `free_cashflows` list has the
same length as the inputs and satisfies
`free_cashflows[i] = operating_cashflows[i] - capital_expenditures[i]`
for every index `i`. -/
theorem C6_fcf_roundtrip (ops capex : List ℚ) (dates : List Date) (shares : List ℤ)
    (tf : TickerFinancials)
    (h : TickerFinancials.construct (some ops) (some capex) none dates shares = .ok tf) :
    tf.free_cashflows = List.zipWith (fun a b => a - b) ops capex ∧
    tf.free_cashflows.length = ops.length ∧
    ∀ i (hi : i < ops.length) (hc : i < capex.length)
      (hf : i < tf.free_cashflows.length),
      tf.free_cashflows[i] = ops[i] - capex[i] := by
  unfold TickerFinancials.construct at h
  simp only [Option.isNone_some, Option.isNone_none, Option.map_some',
    Option.toList_some, Option.getD_some, List.cons_append, List.nil_append,
    List.singleton_append] at h
  rw [if_neg (by simp)] at h
  split_ifs at h with h1 h2 h3 h4
  have hlens := all_eq_of_dedup_len_one (by omega : ([ops.length, capex.length,
      dates.length, shares.length]).dedup.length = 1)
  have hoc : ops.length = capex.length :=
    hlens ops.length (by simp) capex.length (by simp)
  obtain rfl : tf =
      ⟨some ops, some capex, List.zipWith (fun a b => a - b) ops capex, dates, shares⟩ :=
    ((Except.ok.injEq _ _).mp h).symm
  refine ⟨rfl, ?_, ?_⟩
  · rw [List.length_zipWith, hoc, min_self]
  · intro i hi hc hf
    simp [List.getElem_zipWith]

/-- Witness for C6, the spec's scenario: operating cashflows `[10]`, capital
expenditures `[1]` yield free cashflows `[9]`. -/
theorem C6_fcf_roundtrip_witness :
    TickerFinancials.construct (some [10]) (some [1]) none [⟨2020, 1, 1⟩] [100] =
      .ok ⟨some [10], some [1], [9], [⟨2020, 1, 1⟩], [100]⟩ ∧
    ([9] : List ℚ) = List.zipWith (fun a b => a - b) [10] [1] := by
  have h : TickerFinancials.construct (some [10]) (some [1]) none [⟨2020, 1, 1⟩] [100] =
      .ok ⟨some [10], some [1], [9], [⟨2020, 1, 1⟩], [100]⟩ := by
    norm_num [TickerFinancials.construct, List.dedup]
  exact ⟨h, (C6_fcf_roundtrip [10] [1] [⟨2020, 1, 1⟩] [100] _ h).1⟩

/-! ## C2 : terminal-growth recheck in `calc_intrinsic_value` -/

/-- Counterexample to C2 as stated:  at `terminal_growth = discount[-1]`
(here both `1/25`), `calc_intrinsic_value` does not fail with the typed
domain error — the strict guard `terminal_growth > discount[-1]` does not
fire and the Gordon-growth denominator `discount[-1] - terminal_growth`
is zero, so the call fails with a `ZeroDivisionError` instead. -/
theorem C2_calc_equality_counterexample :
    calc_intrinsic_value [100] [1/25] (1/25) 5 = .error .zeroDivisionError ∧
    PyErr.zeroDivisionError ≠ PyErr.fairValueException ∧
    ((1 : ℚ)/25) ≥ ((1 : ℚ)/25) := by
  refine ⟨?_, by decide, le_refl _⟩
  norm_num [calc_intrinsic_value, presentValueFcf]

/-- C2 (amended).  For every call to `calc_intrinsic_value` in which
`terminal_growth` is strictly greater than the final element of the
discount-rate list, the function fails with the typed domain error
(`FairValueException`); at equality the recheck does not fire and the
computation fails with a division-by-zero error instead. -/
theorem C2_calc_strict_guard (free_cashflows discount : List ℚ) (terminal_growth : ℚ)
    (shares_outstanding : ℤ) (d_final : ℚ)
    (hlast : discount.getLast? = some d_final) (hgt : terminal_growth > d_final) :
    calc_intrinsic_value free_cashflows discount terminal_growth shares_outstanding =
      .error .fairValueException := by
  simp only [calc_intrinsic_value, hlast]
  rw [if_pos hgt]

/-- Witness for C2 (amended) at `terminal_growth = 1/10 > 1/25 = discount[-1]`. -/
theorem C2_calc_strict_guard_witness :
    ([1/25] : List ℚ).getLast? = some (1/25) ∧ ((1 : ℚ)/10) > 1/25 ∧
    calc_intrinsic_value [100] [1/25] (1/10) 5 = .error .fairValueException :=
  ⟨rfl, by norm_num,
    C2_calc_strict_guard [100] [1/25] (1/10) 5 (1/25) rfl (by norm_num)⟩

/-! ## C3 : terminal-value guard at `ForecastTickerFinancials` construction -/

/-- Counterexample to C3 as stated: a forecast schedule with well-formed,
equal-length fields and `terminal_growth = -1` strictly less than the final
discount rate `1/25` still fails validation (the `terminal_growth` field is
declared non-negative), so "terminal_growth strictly less always succeeds"
is false. -/
theorem C3_forecast_guard_counterexample :
    ForecastTickerFinancials.construct [⟨2030, 12, 31⟩] [100] [1/25] 1 (-1) =
      .error .validationError ∧
    ((-1 : ℚ) < 1/25) := by
  refine ⟨?_, by norm_num⟩
  norm_num [ForecastTickerFinancials.construct, List.dedup]

/-- C3 (amended).  Constructing a `ForecastTickerFinancials` with
`terminal_growth` greater than or equal to the last discount rate always
raises a validation error; constructing one with a non-negative
`terminal_growth` strictly below the last discount rate, a positive share
count and equal-length well-formed series always succeeds. -/
theorem C3_forecast_guard (year_end_dates : List Date) (free_cashflows discount_rates : List ℚ)
    (shares_outstanding : ℤ) (terminal_growth r_final : ℚ)
    (hlast : discount_rates.getLast? = some r_final) :
    (terminal_growth ≥ r_final →
      ∃ e, ForecastTickerFinancials.construct year_end_dates free_cashflows discount_rates
        shares_outstanding terminal_growth = .error e) ∧
    (0 ≤ terminal_growth → terminal_growth < r_final →
      free_cashflows.length = year_end_dates.length →
      discount_rates.length = year_end_dates.length →
      (year_end_dates.map Date.year).Nodup → 0 < shares_outstanding →
      ForecastTickerFinancials.construct year_end_dates free_cashflows discount_rates
        shares_outstanding terminal_growth =
        .ok ⟨year_end_dates, free_cashflows, discount_rates, shares_outstanding,
             terminal_growth⟩) := by
  constructor
  · intro hge
    simp only [ForecastTickerFinancials.construct, hlast]
    by_cases h1 : ([year_end_dates.length, free_cashflows.length,
        discount_rates.length]).dedup.length ≠ 1
    · exact ⟨.validationError, by rw [if_pos h1]⟩
    · rw [if_neg h1]
      by_cases h2 : (year_end_dates.map Date.year).Nodup
      · rw [if_neg (by simpa using h2), if_pos hge]
        exact ⟨.validationError, rfl⟩
      · rw [if_pos (by simpa using h2)]
        exact ⟨.validationError, rfl⟩
  · intro h0 hlt hf hd hnd hs
    simp only [ForecastTickerFinancials.construct, hlast]
    have hded : ([year_end_dates.length, free_cashflows.length,
        discount_rates.length]).dedup.length = 1 := by
      apply dedup_len_one_of_all_eq year_end_dates.length (by simp)
      intro x hx
      simp at hx
      rcases hx with h | h | h <;> omega
    rw [if_neg (by omega), if_neg (by simpa using hnd),
        if_neg (not_le.mpr hlt), if_neg (not_le.mpr hs),
        if_neg (not_lt.mpr h0)]

/-- Witness for C3 (amended): a valid schedule with `0 ≤ 1/50 < 1/25`
constructs successfully. -/
theorem C3_forecast_guard_witness :
    ForecastTickerFinancials.construct [⟨2030, 12, 31⟩] [100] [1/25] 1 (1/50) =
      .ok ⟨[⟨2030, 12, 31⟩], [100], [1/25], 1, 1/50⟩ :=
  (C3_forecast_guard [⟨2030, 12, 31⟩] [100] [1/25] 1 (1/50) (1/25) rfl).2
    (by norm_num) (by norm_num) (by decide) (by decide) (by decide) (by norm_num)

/-! ## C9 : missing-year fill scenario -/

/-- C9.  `fill_dates` applied to `["2018-01-01", "2020-02-29"]` returns
exactly `["2018-01-01", "2019-01-31", "2020-02-29"]`: the synthesized 2019
entry uses the modal month of the observed dates (January winning the 1-vs-1
tie with February, since `statistics.mode` breaks ties by first occurrence)
and the last valid day of that month. -/
theorem C9_fill_dates_scenario :
    fill_dates [⟨2018, 1, 1⟩, ⟨2020, 2, 29⟩] =
      .ok [⟨2018, 1, 1⟩, ⟨2019, 1, 31⟩, ⟨2020, 2, 29⟩] := by rfl

/-! ## C8 : idempotence of missing-year fill -/

/-- A `fillRow` output always carries the year it was asked for. -/
theorem fillRow_year (dates : List Date) (m y : ℕ) : (fillRow dates m y).year = y := by
  unfold fillRow
  by_cases hmem : y ∈ dates.map Date.year
  · rw [if_pos hmem]
    have hidx := List.indexOf_lt_length.mpr hmem
    have hidx' : (dates.map Date.year).indexOf y < dates.length := by simpa using hidx
    rw [List.getD_eq_getElem dates _ hidx']
    have h2 := List.getElem_indexOf hidx
    rw [List.getElem_map] at h2
    exact h2
  · rw [if_neg hmem]
    rfl

/-- On a list whose years form the contiguous range starting at `s`,
`fillRow` returns the stored date of the requested year. -/
theorem fillRow_of_range (out : List Date) (m s i : ℕ)
    (hY : out.map Date.year = List.range' s out.length) (hi : i < out.length) :
    fillRow out m (s + i) = out[i] := by
  unfold fillRow
  have hmem : s + i ∈ out.map Date.year := by
    rw [hY]
    exact List.mem_range'_1.mpr ⟨Nat.le_add_right s i, by omega⟩
  rw [if_pos hmem]
  have hidx : (out.map Date.year).indexOf (s + i) = i := by
    rw [hY]
    have hib : i < (List.range' s out.length).length := by simpa using hi
    have hget : (List.range' s out.length)[i] = s + i :=
      List.getElem_range'_1 i hib
    conv_lhs => rw [← hget]
    exact List.indexOf_getElem (List.nodup_range' s out.length 1 one_pos) i
      (by simpa using hi)
  rw [hidx]
  exact List.getD_eq_getElem out _ hi

/-- Evaluation of `fill_dates` on a non-empty chronologically sorted input. -/
theorem fill_dates_eq (dates : List Date) (hne : dates ≠ [])
    (hchron : dates = List.insertionSort (· ≤ ·) dates) :
    fill_dates dates = .ok ((List.range' (dates.headD ⟨1, 1, 1⟩).year
      ((dates.getLastD ⟨1, 1, 1⟩).year + 1 - (dates.headD ⟨1, 1, 1⟩).year)).map
      (fillRow dates (mode (dates.map Date.month)))) := by
  simp only [fill_dates]
  rw [if_neg hne, if_neg (not_not_intro hchron)]

/-- Any list whose years form a contiguous range is a fixed point of
`fill_dates`. -/
theorem fill_dates_of_filled (out : List Date) (s : ℕ) (hlen : 0 < out.length)
    (hY : out.map Date.year = List.range' s out.length) :
    fill_dates out = .ok out := by
  have hne : out ≠ [] := List.length_pos.mp hlen
  have hyear : ∀ (i : ℕ) (hi : i < out.length), out[i].year = s + i := by
    intro i hi
    have him : i < (out.map Date.year).length := by simpa using hi
    have hir : i < (List.range' s out.length).length := by
      rw [← hY]
      simpa using hi
    have h1 : (out.map Date.year)[i] = (List.range' s out.length)[i] := by
      simp only [hY]
    rw [List.getElem_map, List.getElem_range'_1] at h1
    exact h1
  have hsorted : out.Sorted (· ≤ ·) := by
    rw [List.Sorted, List.pairwise_iff_getElem]
    intro i j hi hj hij
    rw [Date.le_def]
    have := hyear i hi
    have := hyear j hj
    omega
  have hchron : out = List.insertionSort (· ≤ ·) out :=
    (List.Sorted.insertionSort_eq hsorted).symm
  rw [fill_dates_eq out hne hchron]
  have hhead : out.headD ⟨1, 1, 1⟩ = out.head hne := by
    cases out with
    | nil => exact absurd rfl hne
    | cons a t => rfl
  have hs : (out.headD ⟨1, 1, 1⟩).year = s := by
    rw [hhead, List.head_eq_getElem out hne]
    have := hyear 0 (by omega)
    omega
  have hlastmem : (out.getLastD ⟨1, 1, 1⟩) = out.getLast hne := by
    rw [List.getLastD_eq_getLast?, List.getLast?_eq_getLast out hne]
    rfl
  have he : (out.getLastD ⟨1, 1, 1⟩).year = s + (out.length - 1) := by
    rw [hlastmem, List.getLast_eq_getElem out hne]
    exact hyear (out.length - 1) (by omega)
  rw [hs, he]
  have hn : s + (out.length - 1) + 1 - s = out.length := by omega
  rw [hn]
  congr 1
  apply List.ext_getElem (by simp)
  intro i hi hi'
  have hi'' : i < out.length := hi'
  rw [List.getElem_map, List.getElem_range'_1]
  exact fillRow_of_range out (mode (out.map Date.month)) s i hY hi''

/-- C8.  Idempotence of missing-year fill: for every non-empty
chronologically sorted list of dates, applying `fill_dates` twice yields the
same list as applying it once (the once-filled list has one entry per
calendar year between the first and last, so the second application
synthesizes nothing further). -/
theorem C8_fill_dates_idempotent (dates : List Date) (hne : dates ≠ [])
    (hchron : dates = List.insertionSort (· ≤ ·) dates) :
    (fill_dates dates).bind fill_dates = fill_dates dates := by
  have hsorted : dates.Sorted (· ≤ ·) := by
    rw [hchron]; exact List.sorted_insertionSort _ dates
  have hlen : 0 < dates.length := List.length_pos.mpr hne
  rw [fill_dates_eq dates hne hchron]
  have hhead : dates.headD ⟨1, 1, 1⟩ = dates.head hne := by
    cases dates with
    | nil => exact absurd rfl hne
    | cons a t => rfl
  have hse : (dates.headD ⟨1, 1, 1⟩).year ≤ (dates.getLastD ⟨1, 1, 1⟩).year := by
    rw [hhead, List.getLastD_eq_getLast?, List.getLast?_eq_getLast dates hne]
    have hmem : dates.getLast hne ∈ dates := List.getLast_mem hne
    cases dates with
    | nil => exact absurd rfl hne
    | cons a t =>
      have hrel := List.rel_of_sorted_cons hsorted
      simp only [List.head_cons]
      rcases List.mem_cons.mp hmem with h | h
      · rw [Option.getD_some]
        rw [h]
      · have := hrel _ h
        rw [Option.getD_some]
        rw [Date.le_def] at this
        omega
  set s := (dates.headD ⟨1, 1, 1⟩).year
  set e := (dates.getLastD ⟨1, 1, 1⟩).year
  set out := (List.range' s (e + 1 - s)).map (fillRow dates (mode (dates.map Date.month)))
  have hlenout : out.length = e + 1 - s := by simp [out]
  have hYout : out.map Date.year = List.range' s out.length := by
    apply List.ext_getElem (by simp [out])
    intro i hi hi'
    rw [List.getElem_map, List.getElem_range'_1]
    have hio : i < out.length := by simpa using hi
    have : out[i] = fillRow dates (mode (dates.map Date.month)) (s + i) := by
      simp only [out, List.getElem_map, List.getElem_range'_1]
    rw [this, fillRow_year]
  rw [Except.bind]
  exact fill_dates_of_filled out s (by omega) hYout

/-- Witness for C8 at the concrete sorted input
`["2018-01-01", "2020-02-29"]`. -/
theorem C8_fill_dates_idempotent_witness :
    ([⟨2018, 1, 1⟩, ⟨2020, 2, 29⟩] : List Date) ≠ [] ∧
    ([⟨2018, 1, 1⟩, ⟨2020, 2, 29⟩] : List Date) =
      List.insertionSort (· ≤ ·) [⟨2018, 1, 1⟩, ⟨2020, 2, 29⟩] ∧
    (fill_dates [⟨2018, 1, 1⟩, ⟨2020, 2, 29⟩]).bind fill_dates =
      fill_dates [⟨2018, 1, 1⟩, ⟨2020, 2, 29⟩] :=
  ⟨by decide, by rfl,
    C8_fill_dates_idempotent [⟨2018, 1, 1⟩, ⟨2020, 2, 29⟩] (by decide) (by rfl)⟩

/-! ## C4 : annual-form restriction, sort and keep-last dedup -/

/-- Rows surviving `drop_duplicates(keep="last")` come from the input. -/
theorem dropDupKeepLast_subset {α κ : Type _} [DecidableEq κ] (key : α → κ)
    (l : List α) : ∀ x ∈ dropDupKeepLast key l, x ∈ l := by
  induction l with
  | nil => simp [dropDupKeepLast]
  | cons a t ih =>
    intro x hx
    simp only [dropDupKeepLast] at hx
    by_cases h : t.any (fun y => decide (key y = key a))
    · rw [if_pos h] at hx
      exact List.mem_cons_of_mem a (ih x hx)
    · rw [if_neg h] at hx
      rcases List.mem_cons.mp hx with h' | h'
      · exact h' ▸ List.mem_cons_self a t
      · exact List.mem_cons_of_mem a (ih x h')

/-- `drop_duplicates(keep="last")` is a sublist of its input. -/
theorem dropDupKeepLast_sublist {α κ : Type _} [DecidableEq κ] (key : α → κ)
    (l : List α) : List.Sublist (dropDupKeepLast key l) l := by
  induction l with
  | nil => simp [dropDupKeepLast]
  | cons a t ih =>
    simp only [dropDupKeepLast]
    by_cases h : t.any (fun y => decide (key y = key a))
    · rw [if_pos h]
      exact ih.cons a
    · rw [if_neg h]
      exact ih.cons₂ a

/-- For every key present in the input, exactly one row with that key
survives `drop_duplicates(keep="last")`. -/
theorem countP_dropDupKeepLast {α κ : Type _} [DecidableEq κ] (key : α → κ)
    (l : List α) (e : κ) (h : ∃ x ∈ l, key x = e) :
    (dropDupKeepLast key l).countP (fun r => decide (key r = e)) = 1 := by
  induction l with
  | nil => simp at h
  | cons a t ih =>
    simp only [dropDupKeepLast]
    by_cases hany : t.any (fun y => decide (key y = key a))
    · rw [if_pos hany]
      apply ih
      rcases h with ⟨x, hx, hkey⟩
      rcases List.mem_cons.mp hx with rfl | hx'
      · rcases List.any_eq_true.mp hany with ⟨y, hy, hkeyy⟩
        exact ⟨y, hy, by rw [of_decide_eq_true hkeyy, hkey]⟩
      · exact ⟨x, hx', hkey⟩
    · rw [if_neg hany]
      by_cases hae : key a = e
      · rw [List.countP_cons_of_pos _ _ (by simpa using hae)]
        have hzero : (dropDupKeepLast key t).countP (fun r => decide (key r = e)) = 0 := by
          apply List.countP_eq_zero.mpr
          intro x hx
          have hxt := dropDupKeepLast_subset key t x hx
          simp only [decide_eq_true_eq]
          intro hkx
          exact hany (List.any_eq_true.mpr ⟨x, hxt, by simp [hkx, hae]⟩)
        omega
      · rw [List.countP_cons_of_neg _ _ (by simpa using hae)]
        apply ih
        rcases h with ⟨x, hx, hkey⟩
        rcases List.mem_cons.mp hx with rfl | hx'
        · exact absurd hkey hae
        · exact ⟨x, hx', hkey⟩

/-- On a list sorted by (period end, filed date), the row kept for a period
carries the greatest filed date of that period. -/
theorem filed_le_of_dropDup_sorted (l : List SharesRow) (hs : l.Pairwise rowLe) :
    ∀ x ∈ dropDupKeepLast SharesRow.endDate l, ∀ y ∈ l,
      y.endDate = x.endDate → y.filed ≤ x.filed := by
  induction l with
  | nil => simp [dropDupKeepLast]
  | cons a t ih =>
    have hpair := List.pairwise_cons.mp hs
    intro x hx y hy hkey
    simp only [dropDupKeepLast] at hx
    by_cases hany : t.any (fun z => decide (z.endDate = a.endDate))
    · rw [if_pos hany] at hx
      have hxt : x ∈ t := dropDupKeepLast_subset _ t x hx
      rcases List.mem_cons.mp hy with rfl | hy'
      · rcases hpair.1 x hxt with h | ⟨h1, h2⟩
        · rw [hkey] at h
          exact absurd h (lt_irrefl _)
        · exact h2
      · exact ih hpair.2 x hx y hy' hkey
    · rw [if_neg hany] at hx
      rcases List.mem_cons.mp hx with rfl | hx'
      · rcases List.mem_cons.mp hy with rfl | hy'
        · exact le_refl _
        · exact absurd (List.any_eq_true.mpr ⟨y, hy', by simp [hkey]⟩) hany
      · rcases List.mem_cons.mp hy with rfl | hy'
        · have hxt : x ∈ t := dropDupKeepLast_subset _ t x hx'
          exact absurd (List.any_eq_true.mpr ⟨x, hxt, by simp [← hkey]⟩) hany
        · exact ih hpair.2 x hx' y hy' hkey

/-- When the keys are already distinct, `drop_duplicates(keep="last")` keeps
everything. -/
theorem dropDupKeepLast_eq_self {α κ : Type _} [DecidableEq κ] (key : α → κ)
    (l : List α) (h : (l.map key).Nodup) : dropDupKeepLast key l = l := by
  induction l with
  | nil => rfl
  | cons a t ih =>
    rw [List.map_cons, List.nodup_cons] at h
    have hno : ¬ (t.any (fun y => decide (key y = key a)) = true) := by
      intro hc
      rcases List.any_eq_true.mp hc with ⟨y, hy, hk⟩
      exact h.1 (List.mem_map.mpr ⟨y, hy, of_decide_eq_true hk⟩)
    simp only [dropDupKeepLast]
    rw [if_neg hno, ih h.2]

/-- C4.  In the series aligner, after restricting to annual-category forms,
the records are sorted ascending by (period end-date, filed date) and
deduplicated by period end-date, so that for every period end-date present,
exactly one record remains, it carries the latest filed date among all
annual records for that period, and the output is sorted. -/
theorem C4_dedupe_annual (rows : List SharesRow) (e : Date)
    (he : ∃ r ∈ rows.filter (fun r => decide (r.form ∈ annual_forms)), r.endDate = e) :
    (dedupeAnnual rows).countP (fun r => decide (r.endDate = e)) = 1 ∧
    (∀ x ∈ dedupeAnnual rows, x.endDate = e →
      ∀ y ∈ rows.filter (fun r => decide (r.form ∈ annual_forms)), y.endDate = e →
        y.filed ≤ x.filed) ∧
    (dedupeAnnual rows).Pairwise rowLe := by
  unfold dedupeAnnual
  have hperm := List.perm_insertionSort rowLe
    (rows.filter (fun r => decide (r.form ∈ annual_forms)))
  have hsorted : (List.insertionSort rowLe
      (rows.filter (fun r => decide (r.form ∈ annual_forms)))).Pairwise rowLe :=
    List.sorted_insertionSort rowLe _
  refine ⟨?_, ?_, ?_⟩
  · apply countP_dropDupKeepLast
    rcases he with ⟨r, hr, hre⟩
    exact ⟨r, hperm.mem_iff.mpr hr, hre⟩
  · intro x hx hxe y hy hye
    have hy' := hperm.mem_iff.mpr hy
    exact filed_le_of_dropDup_sorted _ hsorted x hx y hy' (hye.trans hxe.symm)
  · exact hsorted.sublist (dropDupKeepLast_sublist _ _)

/-- Witness for C4: two annual records for period 2020-12-31 (an original and
a later-filed amendment) plus one for 2019-12-31; exactly one 2020-12-31 row
survives and every 2020-12-31 record filed no later than it. -/
theorem C4_dedupe_annual_witness :
    (∃ r ∈ ([⟨⟨2019, 12, 31⟩, none, Form.f10K, ⟨2020, 2, 1⟩, none, 90, none, none⟩,
             ⟨⟨2020, 12, 31⟩, none, Form.f10K, ⟨2021, 2, 1⟩, none, 100, none, none⟩,
             ⟨⟨2020, 12, 31⟩, none, Form.f10KA, ⟨2021, 6, 1⟩, none, 105, none, none⟩] :
            List SharesRow).filter (fun r => decide (r.form ∈ annual_forms)),
        r.endDate = ⟨2020, 12, 31⟩) ∧
    ((dedupeAnnual [⟨⟨2019, 12, 31⟩, none, Form.f10K, ⟨2020, 2, 1⟩, none, 90, none, none⟩,
        ⟨⟨2020, 12, 31⟩, none, Form.f10K, ⟨2021, 2, 1⟩, none, 100, none, none⟩,
        ⟨⟨2020, 12, 31⟩, none, Form.f10KA, ⟨2021, 6, 1⟩, none, 105, none, none⟩]).countP
        (fun r => decide (r.endDate = ⟨2020, 12, 31⟩)) = 1 ∧
      (∀ x ∈ dedupeAnnual [⟨⟨2019, 12, 31⟩, none, Form.f10K, ⟨2020, 2, 1⟩, none, 90, none, none⟩,
          ⟨⟨2020, 12, 31⟩, none, Form.f10K, ⟨2021, 2, 1⟩, none, 100, none, none⟩,
          ⟨⟨2020, 12, 31⟩, none, Form.f10KA, ⟨2021, 6, 1⟩, none, 105, none, none⟩],
        x.endDate = ⟨2020, 12, 31⟩ →
        ∀ y ∈ ([⟨⟨2019, 12, 31⟩, none, Form.f10K, ⟨2020, 2, 1⟩, none, 90, none, none⟩,
            ⟨⟨2020, 12, 31⟩, none, Form.f10K, ⟨2021, 2, 1⟩, none, 100, none, none⟩,
            ⟨⟨2020, 12, 31⟩, none, Form.f10KA, ⟨2021, 6, 1⟩, none, 105, none, none⟩] :
            List SharesRow).filter (fun r => decide (r.form ∈ annual_forms)),
          y.endDate = ⟨2020, 12, 31⟩ → y.filed ≤ x.filed) ∧
      (dedupeAnnual [⟨⟨2019, 12, 31⟩, none, Form.f10K, ⟨2020, 2, 1⟩, none, 90, none, none⟩,
          ⟨⟨2020, 12, 31⟩, none, Form.f10K, ⟨2021, 2, 1⟩, none, 100, none, none⟩,
          ⟨⟨2020, 12, 31⟩, none, Form.f10KA, ⟨2021, 6, 1⟩, none, 105, none, none⟩]).Pairwise
        rowLe) := by
  have hhyp : ∃ r ∈ ([⟨⟨2019, 12, 31⟩, none, Form.f10K, ⟨2020, 2, 1⟩, none, 90, none, none⟩,
      ⟨⟨2020, 12, 31⟩, none, Form.f10K, ⟨2021, 2, 1⟩, none, 100, none, none⟩,
      ⟨⟨2020, 12, 31⟩, none, Form.f10KA, ⟨2021, 6, 1⟩, none, 105, none, none⟩] :
      List SharesRow).filter (fun r => decide (r.form ∈ annual_forms)),
      r.endDate = ⟨2020, 12, 31⟩ :=
    ⟨⟨⟨2020, 12, 31⟩, none, Form.f10K, ⟨2021, 2, 1⟩, none, 100, none, none⟩,
      by norm_num [List.filter, annual_forms], rfl⟩
  exact ⟨hhyp, C4_dedupe_annual _ _ hhyp⟩

/-! ## C1 : stock-split correction -/

/-- Overwriting a field with its current value is the identity. -/
theorem update_split_date_self (r : SharesRow) (v : Option Date)
    (h : r.stock_split_date = v) : { r with stock_split_date := v } = r := by
  cases r
  simp_all

/-- Overwriting the `stock_split` cell with its current value is the
identity. -/
theorem update_split_self (r : SharesRow) (v : Option ℚ)
    (h : r.stock_split = v) : { r with stock_split := v } = r := by
  cases r
  simp_all

/-- Rows named by `enumFrom` are rows of the list. -/
theorem snd_mem_of_mem_enumFrom {α : Type _} (l : List α) (n : ℕ) :
    ∀ q ∈ List.enumFrom n l, q.2 ∈ l := by
  induction l generalizing n with
  | nil => simp
  | cons a t ih =>
    intro q hq
    rw [List.enumFrom_cons] at hq
    rcases List.mem_cons.mp hq with rfl | hq'
    · exact List.mem_cons_self a t
    · exact List.mem_cons_of_mem a (ih (n + 1) q hq')

/-- A `some` result of the `idxmax` fold of `nearest` is its accumulator or
a member of the list. -/
theorem nearest_fold_some_mem (l : List (ℕ × SharesRow)) :
    ∀ (acc : Option (ℕ × SharesRow)) (q : ℕ × SharesRow),
    l.foldl (fun best p =>
      match best with
      | none => some p
      | some q => if q.2.endDate < p.2.endDate then some p else some q) acc = some q →
    acc = some q ∨ q ∈ l := by
  induction l with
  | nil => exact fun acc q h => Or.inl h
  | cons x t ih =>
    intro acc q h
    rw [List.foldl_cons] at h
    rcases ih _ q h with h' | h'
    · rcases acc with _ | p
      · dsimp only at h'
        exact Or.inr (List.mem_cons.mpr (Or.inl (Option.some.inj h').symm))
      · dsimp only at h'
        by_cases hlt : p.2.endDate < x.2.endDate
        · rw [if_pos hlt] at h'
          exact Or.inr (List.mem_cons.mpr (Or.inl (Option.some.inj h').symm))
        · rw [if_neg hlt] at h'
          exact Or.inl h'
    · exact Or.inr (List.mem_cons_of_mem x h')

/-- `nearest` on a frame split as `A ++ a :: B`, where everything in `A` ends
strictly before `a`, `A` and `a` end on or before the split date, and
everything in `B` ends strictly after it: the split is assigned to `a`'s
index. -/
theorem nearest_eq_of_decomp (A : List SharesRow) (a : SharesRow) (B : List SharesRow)
    (d : Date) (hA : ∀ r ∈ A, r.endDate < a.endDate) (hAle : ∀ r ∈ A, r.endDate ≤ d)
    (ha : a.endDate ≤ d) (hB : ∀ r ∈ B, d < r.endDate) :
    nearest d (A ++ a :: B) = some A.length := by
  simp only [nearest]
  have henum : (A ++ a :: B).enum = A.enum ++ (A.length, a) :: List.enumFrom (A.length + 1) B := by
    rw [List.enum_append, List.enumFrom_cons]
  rw [henum, List.filter_append]
  have hfA : A.enum.filter (fun p => decide (p.2.endDate ≤ d)) = A.enum := by
    apply List.filter_eq_self.mpr
    intro q hq
    exact decide_eq_true (hAle q.2 (snd_mem_of_mem_enumFrom A 0 q hq))
  have hfB : (List.enumFrom (A.length + 1) B).filter (fun p => decide (p.2.endDate ≤ d)) = [] := by
    rw [List.filter_eq_nil_iff]
    intro q hq
    simp only [decide_eq_true_eq]
    exact not_le.mpr (hB q.2 (snd_mem_of_mem_enumFrom B (A.length + 1) q hq))
  have hcons : List.filter (fun p : ℕ × SharesRow => decide (p.2.endDate ≤ d))
      ((A.length, a) :: List.enumFrom (A.length + 1) B) =
      (A.length, a) :: List.filter (fun p : ℕ × SharesRow => decide (p.2.endDate ≤ d))
        (List.enumFrom (A.length + 1) B) :=
    List.filter_cons_of_pos (decide_eq_true ha)
  rw [hcons, hfA, hfB]
  rw [List.foldl_append]
  rcases hfold : List.foldl (fun best p =>
      match best with
      | none => some p
      | some q => if q.2.endDate < p.2.endDate then some p else some q) none A.enum
    with _ | q
  · rw [hfold]
    rfl
  · have hqA : q.2 ∈ A := by
      rcases nearest_fold_some_mem A.enum none q hfold with h | h
      · exact absurd h (by simp)
      · exact snd_mem_of_mem_enumFrom A 0 q h
    rw [hfold]
    simp only [List.foldl_cons, List.foldl_nil]
    dsimp only
    rw [if_pos (hA q.2 hqA)]
    rfl

/-- A list of rows with strictly increasing end-dates, at least one row
ending on or before `d`, splits as a prefix ending on or before `d`, the last
such row, and a suffix ending after `d`. -/
theorem exists_decomp_le (rows : List SharesRow) (d : Date)
    (hs : rows.Pairwise (fun a b => a.endDate < b.endDate))
    (hex : ∃ r ∈ rows, r.endDate ≤ d) :
    ∃ A a B, rows = A ++ a :: B ∧ (∀ r ∈ A, r.endDate ≤ d) ∧ a.endDate ≤ d ∧
      (∀ r ∈ B, d < r.endDate) := by
  induction rows with
  | nil => simp at hex
  | cons x xs ih =>
    have hpair := List.pairwise_cons.mp hs
    by_cases hxs : ∃ r ∈ xs, r.endDate ≤ d
    · rcases ih hpair.2 hxs with ⟨A, a, B, heq, hA, ha, hB⟩
      refine ⟨x :: A, a, B, by rw [heq, List.cons_append], ?_, ha, hB⟩
      intro r hr
      rcases List.mem_cons.mp hr with rfl | hr'
      · have hmem : a ∈ xs := by
          rw [heq]
          exact List.mem_append_right A (List.mem_cons_self a B)
        exact le_of_lt (lt_of_lt_of_le (hpair.1 a hmem) ha)
      · exact hA r hr'
    · push_neg at hxs
      rcases hex with ⟨r, hr, hrle⟩
      rcases List.mem_cons.mp hr with rfl | hr'
      · exact ⟨[], r, xs, rfl, by simp, hrle, hxs⟩
      · exact absurd hrle (not_le.mpr (hxs r hr'))

/-- `setSplitAt` at the index right after the prefix `A`. -/
theorem setSplitAt_append (s : Datum) (A : List SharesRow) (a : SharesRow)
    (B : List SharesRow) :
    setSplitAt s A.length (A ++ a :: B) =
      A ++ { a with stock_split := some s.val, stock_split_date := some s.endDate } :: B := by
  induction A with
  | nil => rfl
  | cons x t ih =>
    show x :: setSplitAt s t.length (t ++ a :: B) = x :: (t ++ _ :: B)
    rw [ih]

/-- Back-filling a frame with no split dates at all leaves it unchanged. -/
theorem bfill_allNone (B : List SharesRow)
    (hB : ∀ r ∈ B, r.stock_split_date = none) : bfillSplitDate B = B := by
  induction B with
  | nil => rfl
  | cons r rs ih =>
    have hr := hB r (List.mem_cons_self r rs)
    have hrs := ih (fun x hx => hB x (List.mem_cons_of_mem r hx))
    simp only [bfillSplitDate, hrs, hr]
    cases rs with
    | nil =>
      dsimp only
      rw [update_split_date_self r none hr]
    | cons r2 t =>
      dsimp only
      rw [hB r2 (List.mem_cons_of_mem r (List.mem_cons_self r2 t)),
        update_split_date_self r none hr]

/-- Back-fill on a frame whose only split date sits at the row `x`: the
prefix is filled with that date, the suffix stays empty. -/
theorem bfill_shape (A : List SharesRow) (x : SharesRow) (B : List SharesRow) (d : Date)
    (hA : ∀ r ∈ A, r.stock_split_date = none) (hx : x.stock_split_date = some d)
    (hB : ∀ r ∈ B, r.stock_split_date = none) :
    bfillSplitDate (A ++ x :: B) =
      A.map (fun r => { r with stock_split_date := some d }) ++ x :: B := by
  induction A with
  | nil =>
    rw [List.nil_append, List.map_nil, List.nil_append]
    simp only [bfillSplitDate, hx, bfill_allNone B hB]
    try dsimp only
    rw [update_split_date_self x (some d) hx]
  | cons r t ih =>
    have hr := hA r (List.mem_cons_self r t)
    have iht := ih (fun y hy => hA y (List.mem_cons_of_mem r hy))
    rw [List.cons_append]
    simp only [bfillSplitDate, iht, hr]
    cases t with
    | nil =>
      simp only [List.map_nil, List.nil_append, List.map_cons]
      try dsimp only
      rw [hx]
      rfl
    | cons y t2 =>
      simp only [List.map_cons, List.cons_append]
      try dsimp only
      try rfl

/-- Reversed cumulative product over a frame whose multipliers are all 1. -/
theorem revCumprod_allOne (B : List SharesRow)
    (hB : ∀ r ∈ B, r.stock_split = some 1) : reversedCumprod B = B := by
  induction B with
  | nil => rfl
  | cons r rs ih =>
    have hr := hB r (List.mem_cons_self r rs)
    have hrs := ih (fun x hx => hB x (List.mem_cons_of_mem r hx))
    simp only [reversedCumprod, hrs, hr]
    cases rs with
    | nil =>
      dsimp only
      simp only [Option.getD_some, mul_one]
      rw [update_split_self r (some 1) hr]
    | cons r2 t =>
      dsimp only
      rw [hB r2 (List.mem_cons_of_mem r (List.mem_cons_self r2 t))]
      simp only [Option.getD_some, mul_one]
      rw [update_split_self r (some 1) hr]

/-- Reversed cumulative product over ones-prefix, a single ratio `v`, and a
ones-suffix: the ratio propagates into the whole prefix. -/
theorem revCumprod_shape (A : List SharesRow) (x : SharesRow) (B : List SharesRow) (v : ℚ)
    (hA : ∀ r ∈ A, r.stock_split = some 1) (hx : x.stock_split = some v)
    (hB : ∀ r ∈ B, r.stock_split = some 1) :
    reversedCumprod (A ++ x :: B) =
      A.map (fun r => { r with stock_split := some v }) ++
        { x with stock_split := some v } :: B := by
  induction A with
  | nil =>
    rw [List.nil_append, List.map_nil, List.nil_append]
    simp only [reversedCumprod, revCumprod_allOne B hB, hx]
    cases B with
    | nil =>
      dsimp only
      simp only [Option.getD_some, mul_one]
    | cons b bs =>
      dsimp only
      rw [hB b (List.mem_cons_self b bs)]
      simp only [Option.getD_some, mul_one]
  | cons r t ih =>
    have hr := hA r (List.mem_cons_self r t)
    have iht := ih (fun y hy => hA y (List.mem_cons_of_mem r hy))
    rw [List.cons_append]
    simp only [reversedCumprod, iht, hr]
    cases t with
    | nil =>
      simp only [List.map_nil, List.nil_append, List.map_cons]
      try dsimp only
      simp only [Option.getD_some, one_mul]
      try rfl
    | cons y t2 =>
      simp only [List.map_cons, List.cons_append]
      try dsimp only
      simp only [Option.getD_some, one_mul]

/-- `revCumprod_shape` with the middle row left untouched (its multiplier is
already `v`). -/
theorem revCumprod_shape2 (A : List SharesRow) (x : SharesRow) (B : List SharesRow) (v : ℚ)
    (hA : ∀ r ∈ A, r.stock_split = some 1) (hx : x.stock_split = some v)
    (hB : ∀ r ∈ B, r.stock_split = some 1) :
    reversedCumprod (A ++ x :: B) =
      A.map (fun r => { r with stock_split := some v }) ++ x :: B := by
  rw [revCumprod_shape A x B v hA hx hB, update_split_self x (some v) hx]

/-- C1.  Stock-split correction invariant: for a shares-outstanding datum
series (strictly increasing period end-dates, annual-category forms, every
record ending before the split filed before the split date) containing
exactly one recognized split event of ratio 2 whose period end-date lies
strictly between the end-dates of two of the shares filings, the aligner's
output share count for every period ending before the split equals the input
share count multiplied by 2, and the share count for every period ending
after the split is unchanged. -/
theorem C1_split_correction (shares : List Datum) (s : Datum)
    (hsorted : shares.Pairwise (fun p q => p.endDate < q.endDate))
    (hforms : ∀ r ∈ shares, r.form ∈ annual_forms)
    (hfiled : ∀ r ∈ shares, r.endDate < s.endDate → r.filed < s.endDate)
    (hframe : s.frame ≠ none)
    (hval : s.val = 2)
    (hbefore : ∃ p ∈ shares, p.endDate < s.endDate)
    (hafter : ∃ q ∈ shares, s.endDate < q.endDate) :
    (alignSharesOutstanding shares (some [s])).length = shares.length ∧
    ∀ (i : ℕ) (d : Datum) (r : SharesRow),
      shares[i]? = some d → (alignSharesOutstanding shares (some [s]))[i]? = some r →
      r.endDate = d.endDate ∧
      (d.endDate < s.endDate → r.shares_outstanding = d.val * 2) ∧
      (s.endDate < d.endDate → r.shares_outstanding = d.val) := by
  classical
  have hframe' : s.frame.isSome := Option.ne_none_iff_isSome.mp hframe
  -- decompose the parsed frame around the split date
  have hpair0 : (shares.map datumToSharesRow).Pairwise (fun p q => p.endDate < q.endDate) := by
    rw [List.pairwise_map]
    exact hsorted
  have hex : ∃ r ∈ shares.map datumToSharesRow, r.endDate ≤ s.endDate := by
    rcases hbefore with ⟨p, hp, hlt⟩
    exact ⟨datumToSharesRow p, List.mem_map_of_mem _ hp, le_of_lt hlt⟩
  obtain ⟨A, a, B, hdecomp, hAle, haLe, hBgt⟩ :=
    exists_decomp_le (shares.map datumToSharesRow) s.endDate hpair0 hex
  have hpairD : (A ++ a :: B).Pairwise (fun p q => p.endDate < q.endDate) :=
    hdecomp ▸ hpair0
  have hpairParts := List.pairwise_append.mp hpairD
  have hAlt : ∀ r ∈ A, r.endDate < a.endDate := fun r hr =>
    hpairParts.2.2 r hr a (List.mem_cons_self a B)
  have haB : ∀ r ∈ B, a.endDate < r.endDate :=
    (List.pairwise_cons.mp hpairParts.2.1).1
  have hcross : ∀ p ∈ A, ∀ q ∈ B, p.endDate < q.endDate := fun p hp q hq =>
    hpairParts.2.2 p hp q (List.mem_cons_of_mem a hq)
  -- facts about the parsed rows
  have hfacts : ∀ r ∈ A ++ a :: B, r.stock_split = none ∧ r.stock_split_date = none ∧
      r.form ∈ annual_forms ∧ (r.endDate < s.endDate → r.filed < s.endDate) := by
    intro r hr
    rw [← hdecomp] at hr
    obtain ⟨y, hy, rfl⟩ := List.mem_map.mp hr
    exact ⟨rfl, rfl, hforms y hy, fun h => hfiled y hy h⟩
  have hAf := fun r hr => hfacts r (List.mem_append_left _ hr)
  have haf := hfacts a (List.mem_append_right _ (List.mem_cons_self a B))
  have hBf := fun r hr =>
    hfacts r (List.mem_append_right _ (List.mem_cons_of_mem a hr))
  -- the closed form of the aligner's output
  have hmain : alignSharesOutstanding shares (some [s]) =
      A.map (fun r => { r with stock_split := some s.val, stock_split_date := some s.endDate, shares_outstanding := r.shares_outstanding * s.val, form := Form.f10K }) ++
      { a with stock_split := some s.val, stock_split_date := some s.endDate, shares_outstanding := a.shares_outstanding * s.val, form := Form.f10K } ::
      B.map (fun r => { r with stock_split := some 1, shares_outstanding := r.shares_outstanding * 1, form := Form.f10K }) := by
    simp only [alignSharesOutstanding]
    try dsimp only
    rw [hdecomp]
    have hflt : ([s].filter (fun q => q.frame.isSome)) = [s] := by
      simp [hframe']
    rw [hflt]
    have hsort1 : List.insertionSort (fun p q : Datum => p.endDate ≤ q.endDate) [s] = [s] := rfl
    rw [hsort1]
    rw [if_neg (by simp)]
    split
    · rename_i maxE minE hmaxE hminE
      have hmax' : maxE = s.endDate := by
        have h0 : ([s].map Datum.endDate).max? = some s.endDate := rfl
        rw [h0] at hmaxE
        exact (Option.some.inj hmaxE).symm
      have hcond : ¬ (maxE < minE) := by
        rcases hbefore with ⟨p, hp, hlt⟩
        have hmem : (datumToSharesRow p).endDate ∈ (A ++ a :: B).map SharesRow.endDate := by
          rw [← hdecomp]
          exact List.mem_map_of_mem _ (List.mem_map_of_mem _ hp)
        have hle := ((@List.min?_eq_some_iff Date minE _ _ ⟨fun h1 h2 => le_antisymm h1 h2⟩
          (fun x => le_refl x) (fun x y => min_choice x y) (fun x y z => le_min_iff)
          ((A ++ a :: B).map SharesRow.endDate)).mp hminE).2 _ hmem
        rw [hmax']
        exact lt_asymm (lt_of_le_of_lt hle hlt)
      rw [if_neg hcond]
      have hfold : List.foldl applySplitRow (A ++ a :: B) [s] =
          applySplitRow (A ++ a :: B) s := by
        rw [List.foldl_cons, List.foldl_nil]
      rw [hfold]
      have happly : applySplitRow (A ++ a :: B) s =
          A ++ { a with stock_split := some s.val, stock_split_date := some s.endDate } :: B := by
        unfold applySplitRow
        rw [nearest_eq_of_decomp A a B s.endDate hAlt hAle haLe hBgt]
        exact setSplitAt_append s A a B
      rw [happly]
      rw [bfill_shape A _ B s.endDate (fun r hr => (hAf r hr).2.1) rfl
        (fun r hr => (hBf r hr).2.1)]
      have hfn : fillnaSplitOne (A.map (fun r => { r with stock_split_date := some s.endDate }) ++
          { a with stock_split := some s.val, stock_split_date := some s.endDate } :: B) =
          A.map (fun r => { r with stock_split := some 1, stock_split_date := some s.endDate }) ++
          { a with stock_split := some s.val, stock_split_date := some s.endDate } ::
          B.map (fun r => { r with stock_split := some 1 }) := by
        simp only [fillnaSplitOne, List.map_append, List.map_cons, List.map_map]
        congr 1
        · apply List.map_congr_left
          intro r hr
          have hss := (hAf r hr).1
          cases r
          simp_all
        · congr 1
          apply List.map_congr_left
          intro r hr
          have hss := (hBf r hr).1
          cases r
          simp_all
      rw [hfn]
      have hrc := revCumprod_shape2
        (A.map (fun r => { r with stock_split := some 1, stock_split_date := some s.endDate }))
        ({ a with stock_split := some s.val, stock_split_date := some s.endDate })
        (B.map (fun r => { r with stock_split := some 1 })) s.val
        (by intro r hr; obtain ⟨y, hy, rfl⟩ := List.mem_map.mp hr; rfl)
        rfl
        (by intro r hr; obtain ⟨y, hy, rfl⟩ := List.mem_map.mp hr; rfl)
      rw [hrc]
      have hmapA : (A.map (fun r => { r with stock_split := some 1, stock_split_date := some s.endDate })).map
            (fun r => { r with stock_split := some s.val }) =
          A.map (fun r => { r with stock_split := some s.val, stock_split_date := some s.endDate }) := by
        rw [List.map_map]
        apply List.map_congr_left
        intro r hr
        cases r
        simp
      rw [hmapA]
      have hdropAll : dropRestated
          (A.map (fun r => { r with stock_split := some s.val, stock_split_date := some s.endDate }) ++
          { a with stock_split := some s.val, stock_split_date := some s.endDate } ::
          B.map (fun r => { r with stock_split := some 1 })) =
          A.map (fun r => { r with stock_split := some s.val, stock_split_date := some s.endDate }) ++
          { a with stock_split := some s.val, stock_split_date := some s.endDate } ::
          B.map (fun r => { r with stock_split := some 1 }) := by
        unfold dropRestated
        apply List.filter_eq_self.mpr
        intro r hr
        rcases List.mem_append.mp hr with hrA | hrX
        · obtain ⟨y, hy, rfl⟩ := List.mem_map.mp hrA
          dsimp only
          rw [decide_eq_true_eq]
          intro hcontra
          rcases hcontra with ⟨h1, h2⟩
          exact absurd h2 (not_lt.mpr (le_of_lt ((hAf y hy).2.2.2 h1)))
        · rcases List.mem_cons.mp hrX with rfl | hrB
          · dsimp only
            rw [decide_eq_true_eq]
            intro hcontra
            rcases hcontra with ⟨h1, h2⟩
            exact absurd h2 (not_lt.mpr (le_of_lt (haf.2.2.2 h1)))
          · obtain ⟨y, hy, rfl⟩ := List.mem_map.mp hrB
            have hssd := (hBf y hy).2.1
            dsimp only
            rw [hssd]
        done
      rw [hdropAll]
      -- the remaining frame, its order and its keys
      have hLlt : List.Pairwise (fun p q : SharesRow => p.endDate < q.endDate)
          (A.map (fun r => { r with stock_split := some s.val, stock_split_date := some s.endDate }) ++
          { a with stock_split := some s.val, stock_split_date := some s.endDate } ::
          B.map (fun r => { r with stock_split := some 1 })) := by
        rw [List.pairwise_append]
        refine ⟨?_, ?_, ?_⟩
        · rw [List.pairwise_map]
          exact hpairParts.1
        · rw [List.pairwise_cons]
          constructor
          · intro q hq
            obtain ⟨y, hy, rfl⟩ := List.mem_map.mp hq
            exact haB y hy
          · rw [List.pairwise_map]
            exact (List.pairwise_cons.mp hpairParts.2.1).2
        · intro p hp q hq
          obtain ⟨y, hy, rfl⟩ := List.mem_map.mp hp
          rcases List.mem_cons.mp hq with rfl | hqB
          · exact hAlt y hy
          · obtain ⟨z, hz, rfl⟩ := List.mem_map.mp hqB
            exact hcross y hy z hz
      have hLle : List.Pairwise rowLe
          (A.map (fun r => { r with stock_split := some s.val, stock_split_date := some s.endDate }) ++
          { a with stock_split := some s.val, stock_split_date := some s.endDate } ::
          B.map (fun r => { r with stock_split := some 1 })) :=
        hLlt.imp (fun h => Or.inl h)
      have hded : dedupeAnnual (A.map (fun r => { r with stock_split := some s.val, stock_split_date := some s.endDate }) ++
          { a with stock_split := some s.val, stock_split_date := some s.endDate } ::
          B.map (fun r => { r with stock_split := some 1 })) =
          A.map (fun r => { r with stock_split := some s.val, stock_split_date := some s.endDate }) ++
          { a with stock_split := some s.val, stock_split_date := some s.endDate } ::
          B.map (fun r => { r with stock_split := some 1 }) := by
        unfold dedupeAnnual
        have hfilterA : List.filter (fun r : SharesRow => decide (r.form ∈ annual_forms))
            (A.map (fun r => { r with stock_split := some s.val, stock_split_date := some s.endDate }) ++
            { a with stock_split := some s.val, stock_split_date := some s.endDate } ::
            B.map (fun r => { r with stock_split := some 1 })) = _ := List.filter_eq_self.mpr ?_
        · rw [hfilterA, List.Sorted.insertionSort_eq hLle,
            dropDupKeepLast_eq_self _ _ ?_]
          exact List.pairwise_map.mpr (hLlt.imp (fun h => ne_of_lt h))
        · intro r hr
          rw [decide_eq_true_eq]
          rcases List.mem_append.mp hr with hrA | hrX
          · obtain ⟨y, hy, rfl⟩ := List.mem_map.mp hrA
            exact (hAf y hy).2.2.1
          · rcases List.mem_cons.mp hrX with rfl | hrB
            · exact haf.2.2.1
            · obtain ⟨y, hy, rfl⟩ := List.mem_map.mp hrB
              exact (hBf y hy).2.2.1
      rw [hded]
      rw [List.map_append, List.map_cons, List.map_map, List.map_map]
      rfl
    · rename_i hno
      exfalso
      rcases hm : ((A ++ a :: B).map SharesRow.endDate).min? with _ | m
      · rw [List.min?_eq_none_iff] at hm
        simp at hm
      · exact hno s.endDate m rfl hm
  -- conclusion from the closed form
  have hlenA : (A.map (fun r => { r with stock_split := some s.val, stock_split_date := some s.endDate, shares_outstanding := r.shares_outstanding * s.val, form := Form.f10K })).length =
      A.length := List.length_map _ _
  constructor
  · rw [hmain]
    have : shares.length = (A ++ a :: B).length := by
      rw [← hdecomp, List.length_map]
    simp [this]
  · intro i d r hd hr
    rw [hmain] at hr
    have hd' : (A ++ a :: B)[i]? = some (datumToSharesRow d) := by
      rw [← hdecomp, List.getElem?_map, hd, Option.map_some']
    rcases lt_trichotomy i A.length with hi | hi | hi
    · rw [List.getElem?_append_left (by rw [hlenA]; exact hi), List.getElem?_map] at hr
      rw [List.getElem?_append_left hi] at hd'
      obtain ⟨y, hy, hyr⟩ := Option.map_eq_some'.mp hr
      rw [hd'] at hy
      obtain rfl := Option.some.inj hy
      have hmem : datumToSharesRow d ∈ A := List.getElem?_mem hd'
      refine ⟨by rw [← hyr]; rfl, ?_, ?_⟩
      · intro _
        rw [← hyr, hval]
        rfl
      · intro hgt
        exact absurd hgt (not_lt.mpr (hAle _ hmem))
    · rw [List.getElem?_append_right (by rw [hlenA]; exact le_of_eq hi.symm)] at hr
      rw [hlenA, hi, Nat.sub_self, List.getElem?_cons_zero] at hr
      rw [List.getElem?_append_right (le_of_eq hi.symm), hi, Nat.sub_self,
        List.getElem?_cons_zero] at hd'
      obtain rfl := Option.some.inj hd'
      obtain rfl := Option.some.inj hr
      refine ⟨rfl, ?_, ?_⟩
      · intro _
        rw [hval]
        rfl
      · intro hgt
        exact absurd hgt (not_lt.mpr haLe)
    · rw [List.getElem?_append_right (by rw [hlenA]; exact le_of_lt hi)] at hr
      rw [hlenA] at hr
      have hisub : i - A.length = (i - A.length - 1) + 1 := by omega
      rw [hisub, List.getElem?_cons_succ, List.getElem?_map] at hr
      rw [List.getElem?_append_right (le_of_lt hi), hisub,
        List.getElem?_cons_succ] at hd'
      obtain ⟨y, hy, hyr⟩ := Option.map_eq_some'.mp hr
      rw [hd'] at hy
      obtain rfl := Option.some.inj hy
      have hmem : datumToSharesRow d ∈ B := List.getElem?_mem hd'
      refine ⟨by rw [← hyr]; rfl, ?_, ?_⟩
      · intro hlt
        have := hBgt _ hmem
        exact absurd hlt (not_lt.mpr (le_of_lt this))
      · intro _
        rw [← hyr, mul_one]
        rfl

/-- Witness for `C1_split_correction`: two annual filings (2020-12-31 and
2021-12-31) and one recognized ratio-2 split dated 2021-06-30. -/
theorem C1_split_correction_witness :
    (alignSharesOutstanding
        [{ endDate := ⟨2020, 12, 31⟩, val := 100, form := Form.f10K, filed := ⟨2021, 2, 1⟩ },
         { endDate := ⟨2021, 12, 31⟩, val := 50, form := Form.f10K, filed := ⟨2022, 2, 1⟩ }]
        (some [{ endDate := ⟨2021, 6, 30⟩, val := 2, form := Form.f8K, filed := ⟨2021, 7, 1⟩,
                 frame := some "CY2021Q2" }])).length =
      ([{ endDate := ⟨2020, 12, 31⟩, val := 100, form := Form.f10K, filed := ⟨2021, 2, 1⟩ },
        { endDate := ⟨2021, 12, 31⟩, val := 50, form := Form.f10K, filed := ⟨2022, 2, 1⟩ }] :
        List Datum).length ∧
    ∀ (i : ℕ) (d : Datum) (r : SharesRow),
      ([{ endDate := ⟨2020, 12, 31⟩, val := 100, form := Form.f10K, filed := ⟨2021, 2, 1⟩ },
        { endDate := ⟨2021, 12, 31⟩, val := 50, form := Form.f10K, filed := ⟨2022, 2, 1⟩ }] :
        List Datum)[i]? = some d →
      (alignSharesOutstanding
        [{ endDate := ⟨2020, 12, 31⟩, val := 100, form := Form.f10K, filed := ⟨2021, 2, 1⟩ },
         { endDate := ⟨2021, 12, 31⟩, val := 50, form := Form.f10K, filed := ⟨2022, 2, 1⟩ }]
        (some [{ endDate := ⟨2021, 6, 30⟩, val := 2, form := Form.f8K, filed := ⟨2021, 7, 1⟩,
                 frame := some "CY2021Q2" }]))[i]? = some r →
      r.endDate = d.endDate ∧
      (d.endDate < (⟨2021, 6, 30⟩ : Date) → r.shares_outstanding = d.val * 2) ∧
      ((⟨2021, 6, 30⟩ : Date) < d.endDate → r.shares_outstanding = d.val) :=
  C1_split_correction
    [{ endDate := ⟨2020, 12, 31⟩, val := 100, form := Form.f10K, filed := ⟨2021, 2, 1⟩ },
     { endDate := ⟨2021, 12, 31⟩, val := 50, form := Form.f10K, filed := ⟨2022, 2, 1⟩ }]
    { endDate := ⟨2021, 6, 30⟩, val := 2, form := Form.f8K, filed := ⟨2021, 7, 1⟩,
      frame := some "CY2021Q2" }
    (by decide) (by decide) (by decide) (Option.some_ne_none _) rfl (by decide) (by decide)

/-- C7, counterexample to the literal reading: a `Stock` constructed with
`latest_shares_outstanding = 0` and no historical financials (which
`Stock.__init__` permits) fails `predict_fairvalue` with the *untyped*
`ValueError` from `fetch_latest_financials`, not with a
`FairValueException`, because the financials are fetched before the
zero-shares check runs. -/
theorem C7_zero_shares_counterexample :
    predict_fairvalue ⟨some "TICK", none, none, none, none, 0⟩ 0 0 (1/10) 1 none
        ⟨2024, 1, 1⟩ false = .error .valueError ∧
    (Except.error PyErr.valueError : Except PyErr Response) ≠
      .error .fairValueException := by
  refine ⟨rfl, ?_⟩
  intro h
  injection h with h2
  exact absurd h2 (by decide)

/-- C7, amended: when the stored financials are present and fetchable (so
that the call survives `fetch_latest_financials`), a zero
`latest_shares_outstanding` makes `predict_fairvalue` without an explicit
forecast schedule fail with the typed domain error `FairValueException`,
never returning a result. -/
theorem C7_zero_shares (stock : Stock) (lf : TickerFinancials) (g tg r : ℚ) (n : ℕ)
    (forecast_date : Date) (uhs : Bool)
    (h0 : stock.latest_shares_outstanding = 0)
    (hfetch : fetch_latest_financials forecast_date stock.financials none = .ok lf)
    (hsh : lf.shares_outstanding ≠ []) :
    predict_fairvalue stock g tg r n none forecast_date uhs =
      .error .fairValueException := by
  cases uhs
  · simp only [predict_fairvalue, hfetch]
    try dsimp only
    simp [h0]
  · have hlast : lf.shares_outstanding.getLast? =
        some (lf.shares_outstanding.getLast hsh) := List.getLast?_eq_getLast _ hsh
    simp only [predict_fairvalue, hfetch, hlast]
    try dsimp only
    simp [h0]

/-- Witness for `C7_zero_shares`: one-year financials and a zero share
count. -/
theorem C7_zero_shares_witness :
    predict_fairvalue
        ⟨some "TICK", none, none, none,
          some ⟨none, none, [10], [⟨2023, 12, 31⟩], [5]⟩, 0⟩
        0 0 (1/10) 1 none ⟨2024, 1, 1⟩ false = .error .fairValueException :=
  C7_zero_shares
    ⟨some "TICK", none, none, none,
      some ⟨none, none, [10], [⟨2023, 12, 31⟩], [5]⟩, 0⟩
    ⟨none, none, [10], [⟨2023, 12, 31⟩], [5]⟩
    0 0 (1/10) 1 ⟨2024, 1, 1⟩ false rfl rfl (by decide)

/-- C10.  `Stock.__init__`'s implicit default: on any successful
construction, if `latest_shares_outstanding` was not supplied the stored
value is the last element of the reconciled financials' `shares_outstanding`
series, and if it was supplied the stored value is exactly the argument. -/
theorem C10_shares_default (state_dict : String → Bool)
    (ticker_id exchange cik : Option String) (latestArg : Option ℤ)
    (entity_name : Option String) (hf : Option TickerFinancialsArgs)
    (sf : Option SECFiling) (st : Stock)
    (hok : Stock.init state_dict ticker_id exchange cik latestArg entity_name hf sf =
      .ok st) :
    (latestArg = none → ∃ fin, st.financials = some fin ∧
      fin.shares_outstanding.getLast? = some st.latest_shares_outstanding) ∧
    (∀ v, latestArg = some v → st.latest_shares_outstanding = v) := by
  unfold Stock.init at hok
  cases sf with
  | some sf0 =>
    dsimp only at hok
    rcases hpre : initialize_from_sec_filing state_dict sf0 with e | pre
    · rw [hpre] at hok
      exact absurd hok (by simp)
    · rw [hpre] at hok
      dsimp only at hok
      cases latestArg with
      | none =>
        dsimp only at hok
        rcases hfin : pre.financials with _ | fin
        · rw [hfin] at hok
          exact absurd hok (by simp)
        · rw [hfin] at hok
          dsimp only at hok
          rcases hlast : fin.shares_outstanding.getLast? with _ | v
          · rw [hlast] at hok
            exact absurd hok (by simp)
          · rw [hlast] at hok
            dsimp only at hok
            simp only [Except.ok.injEq] at hok
            refine ⟨fun _ => ⟨fin, ?_, ?_⟩, fun v hv => (by cases hv)⟩
            · rw [← hok]
            · rw [← hok, hlast]
      | some v =>
        dsimp only at hok
        simp only [Except.ok.injEq] at hok
        refine ⟨fun hc => (by cases hc), fun w hw => ?_⟩
        obtain rfl := Option.some.inj hw
        rw [← hok]
  | none =>
    dsimp only at hok
    rcases hpre : initialize_from_user_defined ticker_id exchange cik entity_name
        latestArg hf with e | pre
    · rw [hpre] at hok
      exact absurd hok (by simp)
    · rw [hpre] at hok
      dsimp only at hok
      cases latestArg with
      | none =>
        dsimp only at hok
        rcases hfin : pre.financials with _ | fin
        · rw [hfin] at hok
          exact absurd hok (by simp)
        · rw [hfin] at hok
          dsimp only at hok
          rcases hlast : fin.shares_outstanding.getLast? with _ | v
          · rw [hlast] at hok
            exact absurd hok (by simp)
          · rw [hlast] at hok
            dsimp only at hok
            simp only [Except.ok.injEq] at hok
            refine ⟨fun _ => ⟨fin, ?_, ?_⟩, fun v hv => (by cases hv)⟩
            · rw [← hok]
            · rw [← hok, hlast]
      | some v =>
        dsimp only at hok
        simp only [Except.ok.injEq] at hok
        refine ⟨fun hc => (by cases hc), fun w hw => ?_⟩
        obtain rfl := Option.some.inj hw
        rw [← hok]

/-- Witness for `C10_shares_default`: a user-defined construction with the
share-count argument omitted; the stored value defaults to the last
reconciled share count (here `5`). -/
theorem C10_shares_default_witness :
    ((none : Option ℤ) = none → ∃ fin,
      (⟨some "TICK", none, none, none,
        some ⟨none, none, [10], [⟨2023, 12, 31⟩], [5]⟩, 5⟩ : Stock).financials = some fin ∧
      fin.shares_outstanding.getLast? = some
        (⟨some "TICK", none, none, none,
          some ⟨none, none, [10], [⟨2023, 12, 31⟩], [5]⟩, 5⟩ : Stock).latest_shares_outstanding) ∧
    (∀ v, (none : Option ℤ) = some v →
      (⟨some "TICK", none, none, none,
        some ⟨none, none, [10], [⟨2023, 12, 31⟩], [5]⟩, 5⟩ : Stock).latest_shares_outstanding = v) :=
  C10_shares_default (fun _ => false) (some "TICK") none none none none
    (some ⟨none, none, some [10], [⟨2023, 12, 31⟩], [5]⟩) none
    ⟨some "TICK", none, none, none,
      some ⟨none, none, [10], [⟨2023, 12, 31⟩], [5]⟩, 5⟩ rfl

end FairValue
